import Mathlib

/-!
Verification development for the social-graph analytics engine
(graph store, mutual-friends analyzer, PageRank, friendship scoring,
shortest-path calculator).  C++ `double` arithmetic is embedded as exact
rational arithmetic; `std::set<int>` as `Finset Int` (iteration in
ascending order via `Finset.sort`); `std::map` / `unordered_map` as
association lists; fallible or possibly non-terminating computations
return `Option` with an explicit fuel parameter counting recursive calls.
-/

namespace DSA

/-- Geographic location of a user (latitude, longitude as doubles). -/
structure Location where
  latitude : ℚ
  longitude : ℚ
deriving DecidableEq

/-- Graph node.  The `neighbors` field mirrors `struct Node` in
`graph_generator.hpp`.  Modelled from the spec: the source tree contains
callers of `SocialGraph::getFriends` / `SocialGraph::getFollowing` and of a
`Node::following` member, but no definition of them; per the spec the data
model carries, besides the undirected `neighbors` set, an undirected
connection set (`friends`) and a directed out-adjacency (`following`),
both per-user sets of node IDs. -/
structure Node where
  user_id : Int
  name : String
  location : Location
  region_id : Int
  interests : List String
  created_at : String
  neighbors : Finset Int
  friends : Finset Int
  following : Finset Int
deriving DecidableEq

/-- Relationship record between two users (`struct Edge`). -/
structure Edge where
  source : Int
  target : Int
  relationship_type : String
  message_count : Int
  last_interaction : String
  distance : ℚ
  established_at : String
deriving DecidableEq

/-- Snapshot-level counts (`struct GraphMetadata`). -/
structure GraphMetadata where
  date : String
  total_nodes : Int
  total_edges : Int
  friend_relationships : Int
  fan_relationships : Int
  average_degree : ℚ
deriving DecidableEq

/-- The in-memory graph store (`class SocialGraph`).  The node map
(`unordered_map<int, Node>`) is embedded as an association list from user
ID to node. -/
structure SocialGraph where
  nodes : List (Int × Node)
  edges : List Edge
  metadata : GraphMetadata
deriving DecidableEq

/-- Lookup of `SocialGraph::getNode`: the node stored under a user ID, if
present. -/
def SocialGraph.getNode (g : SocialGraph) (user_id : Int) : Option Node :=
  (g.nodes.find? (fun kv => kv.1 == user_id)).map (fun kv => kv.2)

/-- Embedding of `SocialGraph::getNeighbors` (empty set for an absent user). -/
def SocialGraph.getNeighbors (g : SocialGraph) (user_id : Int) : Finset Int :=
  match g.getNode user_id with
  | some n => n.neighbors
  | none => ∅

/-- Modelled from the spec: `SocialGraph::getFriends` is called throughout
the feature code but not defined under the provided sources; per the spec
it returns the per-user undirected connection set, degrading to the empty
set for an absent user exactly like `getNeighbors`. -/
def SocialGraph.getFriends (g : SocialGraph) (user_id : Int) : Finset Int :=
  match g.getNode user_id with
  | some n => n.friends
  | none => ∅

/-- Modelled from the spec: `SocialGraph::getFollowing` is called by the
path and ranking code but not defined under the provided sources; per the
spec it returns the directed out-adjacency ("following") set, degrading to
the empty set for an absent user. -/
def SocialGraph.getFollowing (g : SocialGraph) (user_id : Int) : Finset Int :=
  match g.getNode user_id with
  | some n => n.following
  | none => ∅

/-- Embedding of `SocialGraph::getEdges`. -/
def SocialGraph.getEdges (g : SocialGraph) : List Edge :=
  g.edges

/-- Ascending enumeration of a finite integer set, mirroring iteration over
an ordered `std::set<int>` in increasing key order.  Implemented with
insertion sort so that the kernel can evaluate it on concrete sets. -/
def ascElems (s : Finset Int) : List Int :=
  Quotient.liftOn s.val (fun l => l.insertionSort (fun a b => a ≤ b))
    (by
      intro a b hab
      apply List.eq_of_perm_of_sorted (r := fun a b : Int => a ≤ b)
      · exact ((a.perm_insertionSort (fun a b : Int => a ≤ b)).trans hab).trans
          ((b.perm_insertionSort (fun a b : Int => a ≤ b)).symm)
      · exact List.sorted_insertionSort _ a
      · exact List.sorted_insertionSort _ b)

theorem ascElems_sorted (s : Finset Int) :
    List.Sorted (fun a b : Int => a ≤ b) (ascElems s) := by
  obtain ⟨m, hm⟩ := s
  induction m using Quotient.inductionOn with
  | h l => exact List.sorted_insertionSort _ l

theorem coe_ascElems (s : Finset Int) : (ascElems s : Multiset Int) = s.val := by
  obtain ⟨m, hm⟩ := s
  induction m using Quotient.inductionOn with
  | h l =>
      exact Multiset.coe_eq_coe.mpr (l.perm_insertionSort (fun a b : Int => a ≤ b))

theorem ascElems_nodup (s : Finset Int) : (ascElems s).Nodup := by
  have h1 := coe_ascElems s
  have h2 := s.nodup
  rw [← h1] at h2
  exact Multiset.coe_nodup.mp h2

theorem ascElems_sorted_lt (s : Finset Int) :
    List.Sorted (fun a b : Int => a < b) (ascElems s) :=
  (ascElems_sorted s).lt_of_le (ascElems_nodup s)

theorem mem_ascElems (s : Finset Int) (x : Int) : x ∈ ascElems s ↔ x ∈ s := by
  rw [show (x ∈ s) = (x ∈ s.val) from rfl, ← coe_ascElems, Multiset.mem_coe]

theorem length_ascElems (s : Finset Int) : (ascElems s).length = s.card := by
  rw [Finset.card, ← coe_ascElems, Multiset.coe_card]

/-! ## AlgoUtils (`algo_utils.hpp`) -/

/-- Embedding of `AlgoUtils::set_intersection_of_two`. -/
def set_intersection_of_two (set_a set_b : Finset Int) : Finset Int :=
  set_a ∩ set_b

/-- Embedding of `AlgoUtils::jaccard_similarity`. -/
def jaccard_similarity (set_a set_b : Finset Int) : ℚ :=
  if set_a = ∅ ∧ set_b = ∅ then 1
  else
    let inter := set_intersection_of_two set_a set_b
    let union_size : Int := (set_a.card : Int) + (set_b.card : Int) - (inter.card : Int)
    if union_size = 0 then 0 else (inter.card : ℚ) / (union_size : ℚ)

/-- Embedding of `AlgoUtils::find_common_items`. -/
def find_common_items (list_a list_b : List String) : List String :=
  list_a.filter (fun item => decide (item ∈ list_b))

/-- Embedding of `AlgoUtils::normalize_to_01`. -/
def normalize_to_01 (value max_value : ℚ) : ℚ :=
  if max_value ≤ 0 then 0
  else min 1 (max 0 (value / max_value))

/-! ## Mutual friends analyzer (`Features/mutual_friends.hpp`) -/

/-- Result of `MutualFriendsAnalyzer::analyze`. -/
structure MutualFriendsResult where
  user_id_1 : Int
  user_id_2 : Int
  mutual_ids : List Int
  similarity_ratio : ℚ
  total_degree_1 : Int
  total_degree_2 : Int
deriving DecidableEq

/-- Embedding of `MutualFriendsAnalyzer::analyze`.  The C++ result struct
has no constructor, so on the early-return path for an absent user the two
`total_degree` ints are read from uninitialized storage; those
indeterminate values are made explicit as the parameters `junk1` and
`junk2`.  Iteration over the ordered `std::set` is `Finset.sort (· ≤ ·)`. -/
def analyze (g : SocialGraph) (junk1 junk2 : Int) (user_id_1 user_id_2 : Int) :
    MutualFriendsResult :=
  let base : MutualFriendsResult :=
    { user_id_1 := user_id_1, user_id_2 := user_id_2, mutual_ids := [],
      similarity_ratio := 0, total_degree_1 := junk1, total_degree_2 := junk2 }
  match g.getNode user_id_1, g.getNode user_id_2 with
  | some _, some _ =>
    let friends_1 := g.getFriends user_id_1
    let friends_2 := g.getFriends user_id_2
    let base := { base with total_degree_1 := (friends_1.card : Int),
                            total_degree_2 := (friends_2.card : Int) }
    if friends_1 = ∅ ∨ friends_2 = ∅ then base
    else
      let smaller := if friends_1.card < friends_2.card then friends_1 else friends_2
      let larger := if friends_1.card ≤ friends_2.card then friends_2 else friends_1
      let mutual_ids := (ascElems smaller).filter (fun fid => decide (fid ∈ larger))
      let union_size : Int :=
        (friends_1.card : Int) + (friends_2.card : Int) - (mutual_ids.length : Int)
      { base with
        mutual_ids := mutual_ids,
        similarity_ratio :=
          if union_size = 0 then 0
          else (mutual_ids.length : ℚ) / (union_size : ℚ) }
  | _, _ => base

/-! ## Closed forms and generic facts for the analyzer -/

theorem filter_ascElems_inter (s t : Finset Int) :
    (ascElems s).filter (fun x => decide (x ∈ t)) = ascElems (s ∩ t) := by
  apply List.eq_of_perm_of_sorted (r := fun a b : Int => a ≤ b)
  · refine (List.perm_ext_iff_of_nodup ((ascElems_nodup s).filter _)
      (ascElems_nodup _)).mpr ?_
    intro a
    simp [List.mem_filter, mem_ascElems, Finset.mem_inter]
  · exact (ascElems_sorted s).filter _
  · exact ascElems_sorted _

/-- Closed form of `analyze` on the main branch (both users present, both
friend sets nonempty). -/
theorem analyze_main_branch (g : SocialGraph) (j1 j2 u1 u2 : Int) (n1 n2 : Node)
    (h1 : g.getNode u1 = some n1) (h2 : g.getNode u2 = some n2)
    (hf1 : g.getFriends u1 ≠ ∅) (hf2 : g.getFriends u2 ≠ ∅) :
    analyze g j1 j2 u1 u2 =
      (let F1 := g.getFriends u1
      let F2 := g.getFriends u2
      let smaller := if F1.card < F2.card then F1 else F2
      let larger := if F1.card ≤ F2.card then F2 else F1
      let m := (smaller ∩ larger).card
      let union_size : Int := (F1.card : Int) + (F2.card : Int) - (m : Int)
      { user_id_1 := u1, user_id_2 := u2,
        mutual_ids := ascElems (smaller ∩ larger),
        similarity_ratio :=
          if union_size = 0 then 0 else (m : ℚ) / (union_size : ℚ),
        total_degree_1 := (F1.card : Int), total_degree_2 := (F2.card : Int) }) := by
  simp only [analyze, h1, h2, hf1, hf2, or_self, if_false, false_or, or_false,
    filter_ascElems_inter, length_ascElems]

/-- Closed form of `analyze` when at least one user is absent. -/
theorem analyze_absent (g : SocialGraph) (j1 j2 u1 u2 : Int)
    (h : g.getNode u1 = none ∨ g.getNode u2 = none) :
    analyze g j1 j2 u1 u2 =
      { user_id_1 := u1, user_id_2 := u2, mutual_ids := [],
        similarity_ratio := 0, total_degree_1 := j1, total_degree_2 := j2 } := by
  rcases h with h | h <;>
    rcases h1 : g.getNode u1 with _ | n1 <;>
    rcases h2 : g.getNode u2 with _ | n2 <;>
    simp_all [analyze]

/-- Closed form of `analyze` on the early exit for an empty friend set
(both users present). -/
theorem analyze_empty_exit (g : SocialGraph) (j1 j2 u1 u2 : Int) (n1 n2 : Node)
    (h1 : g.getNode u1 = some n1) (h2 : g.getNode u2 = some n2)
    (hf : g.getFriends u1 = ∅ ∨ g.getFriends u2 = ∅) :
    analyze g j1 j2 u1 u2 =
      { user_id_1 := u1, user_id_2 := u2, mutual_ids := [],
        similarity_ratio := 0,
        total_degree_1 := ((g.getFriends u1).card : Int),
        total_degree_2 := ((g.getFriends u2).card : Int) } := by
  simp only [analyze, h1, h2]
  rw [if_pos hf]

/-- The intersection actually enumerated by `analyze` is no larger than
either friend set (this includes the equal-cardinality corner where both
`smaller` and `larger` denote `friends_2`). -/
theorem analyze_inter_card_le (F1 F2 : Finset Int) :
    (((if F1.card < F2.card then F1 else F2) ∩
      (if F1.card ≤ F2.card then F2 else F1)).card ≤ F1.card) ∧
    (((if F1.card < F2.card then F1 else F2) ∩
      (if F1.card ≤ F2.card then F2 else F1)).card ≤ F2.card) := by
  rcases lt_trichotomy F1.card F2.card with h | h | h
  · rw [if_pos h, if_pos h.le]
    exact ⟨Finset.card_le_card Finset.inter_subset_left,
      Finset.card_le_card Finset.inter_subset_right⟩
  · rw [if_neg (by omega), if_pos h.le, Finset.inter_self]
    omega
  · rw [if_neg (by omega), if_neg (by omega)]
    exact ⟨Finset.card_le_card Finset.inter_subset_right,
      Finset.card_le_card Finset.inter_subset_left⟩

/-! ## Concrete sample graphs (witness and counterexample inputs) -/

/-- A node with the given ID whose neighbor and friend sets are `fr` and
which follows nobody. -/
def plainNode (uid : Int) (fr : Finset Int) : Node :=
  { user_id := uid, name := "", location := { latitude := 0, longitude := 0 },
    region_id := 0, interests := [], created_at := "",
    neighbors := fr, friends := fr, following := ∅ }

def sampleMeta : GraphMetadata :=
  { date := "", total_nodes := 0, total_edges := 0,
    friend_relationships := 0, fan_relationships := 0, average_degree := 0 }

/-- The graph with no nodes and no edges. -/
def emptyGraph : SocialGraph := { nodes := [], edges := [], metadata := sampleMeta }

/-- One isolated user (ID 5) with an empty friend set. -/
def lonerGraph : SocialGraph :=
  { nodes := [(5, plainNode 5 ∅)], edges := [], metadata := sampleMeta }

/-- Two isolated users (IDs 1 and 2), both with empty friend sets. -/
def twoLonersGraph : SocialGraph :=
  { nodes := [(1, plainNode 1 ∅), (2, plainNode 2 ∅)], edges := [], metadata := sampleMeta }

/-- Four users with friendships 1-3 and 2-4: users 1 and 2 have friend sets
of equal size one but with different members. -/
def tieGraph : SocialGraph :=
  { nodes := [(1, plainNode 1 {3}), (2, plainNode 2 {4}),
              (3, plainNode 3 {1}), (4, plainNode 4 {2})],
    edges := [], metadata := sampleMeta }

/-- The path graph 1-2-3-4 of the spec scenario. -/
def pathGraph : SocialGraph :=
  { nodes := [(1, plainNode 1 {2}), (2, plainNode 2 {1, 3}),
              (3, plainNode 3 {2, 4}), (4, plainNode 4 {3})],
    edges := [], metadata := sampleMeta }

/-! ## Claim C7 -/

/-- C7, corrected: for every query the similarity ratio lies in [0, 1];
self-comparison of an existing user returns exactly 1.0 when the user has
at least one friend, but 0.0 (not 1.0) when their friend set is empty,
because the code hits the empty-set early exit first. -/
theorem C7_similarity_range_and_self (g : SocialGraph) (j1 j2 u1 u2 : Int) :
    (0 ≤ (analyze g j1 j2 u1 u2).similarity_ratio ∧
      (analyze g j1 j2 u1 u2).similarity_ratio ≤ 1) ∧
    ((g.getNode u1).isSome → g.getFriends u1 ≠ ∅ →
      (analyze g j1 j2 u1 u1).similarity_ratio = 1) ∧
    ((g.getNode u1).isSome → g.getFriends u1 = ∅ →
      (analyze g j1 j2 u1 u1).similarity_ratio = 0) := by
  refine ⟨?_, ?_, ?_⟩
  · rcases h1 : g.getNode u1 with _ | n1
    · rw [analyze_absent g j1 j2 u1 u2 (Or.inl h1)]
      norm_num
    · rcases h2 : g.getNode u2 with _ | n2
      · rw [analyze_absent g j1 j2 u1 u2 (Or.inr h2)]
        norm_num
      · by_cases hf : g.getFriends u1 = ∅ ∨ g.getFriends u2 = ∅
        · rw [analyze_empty_exit g j1 j2 u1 u2 n1 n2 h1 h2 hf]
          norm_num
        · push_neg at hf
          rw [analyze_main_branch g j1 j2 u1 u2 n1 n2 h1 h2 hf.1 hf.2]
          simp only
          have hc := analyze_inter_card_le (g.getFriends u1) (g.getFriends u2)
          have hpos2 : 0 < (g.getFriends u2).card :=
            Finset.card_pos.mpr (Finset.nonempty_iff_ne_empty.mpr hf.2)
          set m := ((if (g.getFriends u1).card < (g.getFriends u2).card
              then g.getFriends u1 else g.getFriends u2) ∩
            (if (g.getFriends u1).card ≤ (g.getFriends u2).card
              then g.getFriends u2 else g.getFriends u1)).card with hm
          have hne : ((g.getFriends u1).card : Int) + ((g.getFriends u2).card : Int)
              - (m : Int) ≠ 0 := by omega
          rw [if_neg hne]
          have hposq : (0 : ℚ) <
              ((((g.getFriends u1).card : Int) + ((g.getFriends u2).card : Int)
                - (m : Int) : Int) : ℚ) := by
            have : (0 : Int) < ((g.getFriends u1).card : Int)
                + ((g.getFriends u2).card : Int) - (m : Int) := by omega
            exact_mod_cast this
          constructor
          · positivity
          · rw [div_le_one hposq]
            have : (m : Int) ≤ ((g.getFriends u1).card : Int)
                + ((g.getFriends u2).card : Int) - (m : Int) := by omega
            exact_mod_cast this
  · intro hs hne
    obtain ⟨n, hn⟩ := Option.isSome_iff_exists.mp hs
    rw [analyze_main_branch g j1 j2 u1 u1 n n hn hn hne hne]
    simp only [lt_self_iff_false, if_false, le_refl, if_true, Finset.inter_self]
    have hpos : 0 < (g.getFriends u1).card :=
      Finset.card_pos.mpr (Finset.nonempty_iff_ne_empty.mpr hne)
    have hne0 : ((g.getFriends u1).card : Int) + ((g.getFriends u1).card : Int)
        - ((g.getFriends u1).card : Int) ≠ 0 := by omega
    rw [if_neg hne0]
    have : ((g.getFriends u1).card : Int) + ((g.getFriends u1).card : Int)
        - ((g.getFriends u1).card : Int) = ((g.getFriends u1).card : Int) := by omega
    rw [this]
    have hq : (((g.getFriends u1).card : ℕ) : ℚ) ≠ 0 := by exact_mod_cast hpos.ne'
    push_cast
    exact div_self hq
  · intro hs hemp
    obtain ⟨n, hn⟩ := Option.isSome_iff_exists.mp hs
    rw [analyze_empty_exit g j1 j2 u1 u1 n n hn hn (Or.inl hemp)]

/-- C7 counterexample: the claim requires ratio 1.0 for self-comparison of
an existing user with zero neighbors, but the code returns 0.0. -/
theorem C7_counterexample :
    (analyze lonerGraph 0 0 5 5).similarity_ratio = 0 ∧
    ¬ (analyze lonerGraph 0 0 5 5).similarity_ratio = 1 := by
  constructor <;> decide

/-- C7 witness: the amended theorem applied at concrete inputs. -/
theorem C7_witness :
    (analyze tieGraph 0 0 1 1).similarity_ratio = 1 ∧
    (analyze lonerGraph 0 0 5 5).similarity_ratio = 0 :=
  ⟨(C7_similarity_range_and_self tieGraph 0 0 1 2).2.1 (by decide) (by decide),
    (C7_similarity_range_and_self lonerGraph 0 0 5 5).2.2 (by decide) (by decide)⟩

/-! ## Claim C8 -/

/-- C8, confirmed: the two Jaccard paths disagree on empty/empty.
`AlgoUtils::jaccard_similarity` returns 1.0 on two empty sets, while
`MutualFriendsAnalyzer::analyze` on two existing users with empty friend
sets returns similarity 0.0 through its early exit. -/
theorem C8_jaccard_disagreement (g : SocialGraph) (j1 j2 u1 u2 : Int) (n1 n2 : Node) :
    jaccard_similarity ∅ ∅ = 1 ∧
    (g.getNode u1 = some n1 → g.getNode u2 = some n2 →
      g.getFriends u1 = ∅ → g.getFriends u2 = ∅ →
      (analyze g j1 j2 u1 u2).similarity_ratio = 0) := by
  constructor
  · simp [jaccard_similarity]
  · intro h1 h2 hf1 hf2
    rw [analyze_empty_exit g j1 j2 u1 u2 n1 n2 h1 h2 (Or.inl hf1)]

/-- C8 witness: concrete two-user graph with empty friend sets. -/
theorem C8_witness :
    jaccard_similarity ∅ ∅ = 1 ∧
    (analyze twoLonersGraph 0 0 1 2).similarity_ratio = 0 :=
  ⟨(C8_jaccard_disagreement twoLonersGraph 0 0 1 2 (plainNode 1 ∅) (plainNode 2 ∅)).1,
    (C8_jaccard_disagreement twoLonersGraph 0 0 1 2 (plainNode 1 ∅) (plainNode 2 ∅)).2
      (by decide) (by decide) (by decide) (by decide)⟩

/-! ## Claim C9 -/

/-- C9, refuted on the degree fields: when a user is absent the C++ early
return leaves `total_degree_1` and `total_degree_2` uninitialized (they
are default-initialized `int` members of a struct with no constructor), so
they hold indeterminate values (the `junk` parameters of the model), not 0.
The mutual list and the similarity ratio are indeed zero-valued. -/
theorem C9_absent_user_junk_degrees (j1 j2 : Int) :
    analyze emptyGraph j1 j2 1 2 =
      { user_id_1 := 1, user_id_2 := 2, mutual_ids := [],
        similarity_ratio := 0, total_degree_1 := j1, total_degree_2 := j2 } :=
  analyze_absent emptyGraph j1 j2 1 2 (Or.inl rfl)

/-! ## Claim C10 -/

/-- C10, corrected: the mutual-friend list is always strictly ascending
(hence duplicate-free), and it is identical for the calls (A, B) and
(B, A) whenever the two friend sets differ in cardinality or are equal as
sets.  In the remaining case (equal cardinality, different sets) the code
binds both `smaller` and `larger` to `friends_2`, so the enumerated
"intersection" is the whole of `friends_2` and symmetry fails. -/
theorem C10_sorted_and_conditional_symm (g : SocialGraph) (j1 j2 j3 j4 u1 u2 : Int) :
    List.Sorted (fun a b : Int => a < b) (analyze g j1 j2 u1 u2).mutual_ids ∧
    ((g.getFriends u1).card ≠ (g.getFriends u2).card ∨
        g.getFriends u1 = g.getFriends u2 →
      (analyze g j1 j2 u1 u2).mutual_ids = (analyze g j3 j4 u2 u1).mutual_ids) := by
  constructor
  · rcases h1 : g.getNode u1 with _ | n1
    · rw [analyze_absent g j1 j2 u1 u2 (Or.inl h1)]
      exact List.sorted_nil
    · rcases h2 : g.getNode u2 with _ | n2
      · rw [analyze_absent g j1 j2 u1 u2 (Or.inr h2)]
        exact List.sorted_nil
      · by_cases hf : g.getFriends u1 = ∅ ∨ g.getFriends u2 = ∅
        · rw [analyze_empty_exit g j1 j2 u1 u2 n1 n2 h1 h2 hf]
          exact List.sorted_nil
        · push_neg at hf
          rw [analyze_main_branch g j1 j2 u1 u2 n1 n2 h1 h2 hf.1 hf.2]
          exact ascElems_sorted_lt _
  · intro hsym
    rcases h1 : g.getNode u1 with _ | n1
    · rw [analyze_absent g j1 j2 u1 u2 (Or.inl h1),
        analyze_absent g j3 j4 u2 u1 (Or.inr h1)]
    · rcases h2 : g.getNode u2 with _ | n2
      · rw [analyze_absent g j1 j2 u1 u2 (Or.inr h2),
          analyze_absent g j3 j4 u2 u1 (Or.inl h2)]
      · by_cases hf : g.getFriends u1 = ∅ ∨ g.getFriends u2 = ∅
        · rw [analyze_empty_exit g j1 j2 u1 u2 n1 n2 h1 h2 hf,
            analyze_empty_exit g j3 j4 u2 u1 n2 n1 h2 h1 hf.symm]
        · push_neg at hf
          rw [analyze_main_branch g j1 j2 u1 u2 n1 n2 h1 h2 hf.1 hf.2,
            analyze_main_branch g j3 j4 u2 u1 n2 n1 h2 h1 hf.2 hf.1]
          simp only
          rcases hsym with hne | heq
          · rcases lt_or_gt_of_ne hne with hlt | hgt
            · rw [if_pos hlt, if_pos hlt.le, if_neg (by omega), if_neg (by omega),
                Finset.inter_comm]
            · rw [if_neg (by omega), if_neg (by omega), if_pos hgt, if_pos hgt.le,
                Finset.inter_comm]
          · rw [heq]

/-- C10 counterexample: with friend sets of equal size one but different
members, the mutual list of (1, 2) is the whole friend set of user 2 and
the mutual list of (2, 1) is the whole friend set of user 1. -/
theorem C10_counterexample :
    (analyze tieGraph 0 0 1 2).mutual_ids = [4] ∧
    (analyze tieGraph 0 0 2 1).mutual_ids = [3] ∧
    (analyze tieGraph 0 0 1 2).mutual_ids ≠ (analyze tieGraph 0 0 2 1).mutual_ids := by
  refine ⟨by decide, by decide, by decide⟩

/-- C10 witness: on the path graph 1-2-3-4 the users 1 and 3 have friend
sets of different sizes, and the mutual list is [2] in both orders. -/
theorem C10_witness :
    (analyze pathGraph 0 0 1 3).mutual_ids = (analyze pathGraph 0 0 3 1).mutual_ids :=
  (C10_sorted_and_conditional_symm pathGraph 0 0 0 0 1 3).2 (Or.inl (by decide))

/-! ## PageRank (`Features/pagerank.hpp`) -/

/-- Read access `m[k]` of an integer-keyed `std::map` of doubles: the value
stored under `k`, or the value-initialized default 0.0. -/
def mapGet (m : List (Int × ℚ)) (k : Int) : ℚ :=
  ((m.find? (fun kv => kv.1 == k)).map (fun kv => kv.2)).getD 0

def containsKey (m : List (Int × ℚ)) (k : Int) : Bool :=
  (m.find? (fun kv => kv.1 == k)).isSome

/-- The compound assignment `m[k] += x` of `std::map` operator[]: update in
place when the key exists, otherwise insert the key with default 0.0 and
add. -/
def mapAdd (m : List (Int × ℚ)) (k : Int) (x : ℚ) : List (Int × ℚ) :=
  if containsKey m k then
    m.map (fun kv => if kv.1 == k then (kv.1, kv.2 + x) else kv)
  else m ++ [(k, 0 + x)]

/-- Sum of all values stored in the map (the total probability mass). -/
def sumVals (m : List (Int × ℚ)) : ℚ :=
  (m.map (fun kv => kv.2)).sum

/-- The body of the contribution loop of `PageRankCalculator::calculate`:
a node with outgoing connections splits `damping × rank/out_degree` over
its targets; a dangling node distributes `damping × rank / N` over every
entry of the new rank map. -/
def pagerank_body (g : SocialGraph) (damping_factor : ℚ) (rank : List (Int × ℚ))
    (new_rank : List (Int × ℚ)) (kv : Int × Node) : List (Int × ℚ) :=
  let id := kv.1
  let node := kv.2
  let out_degree : ℕ := node.following.card
  if 0 < out_degree then
    let contribution := mapGet rank id / (out_degree : ℚ)
    (ascElems node.following).foldl
      (fun nr target_id => mapAdd nr target_id (damping_factor * contribution)) new_rank
  else
    let distributed := damping_factor * mapGet rank id / ((g.nodes.length : ℕ) : ℚ)
    new_rank.map (fun kv2 => (kv2.1, kv2.2 + distributed))

/-- One iteration of the PageRank update loop in
`PageRankCalculator::calculate`: reset every node to the base score, then
add each node's outgoing contribution. -/
def pagerank_iter (g : SocialGraph) (damping_factor : ℚ)
    (rank : List (Int × ℚ)) : List (Int × ℚ) :=
  let base := g.nodes.map
    (fun kv => (kv.1, (1 - damping_factor) / ((g.nodes.length : ℕ) : ℚ)))
  g.nodes.foldl (pagerank_body g damping_factor rank) base

namespace PageRankCalculator

/-- Embedding of `PageRankCalculator::calculate`. -/
def calculate (g : SocialGraph) (damping_factor : ℚ) (iteration_count : ℕ) :
    List (Int × ℚ) :=
  let node_count := g.nodes.length
  if node_count = 0 then []
  else
    let initial_rank : ℚ := 1 / (node_count : ℚ)
    let rank0 := g.nodes.map (fun kv => (kv.1, initial_rank))
    (pagerank_iter g damping_factor)^[iteration_count] rank0

end PageRankCalculator

/-- Well-formedness of a loaded graph: node keys are distinct (an
`unordered_map` invariant) and every followed target is itself a stored
node (the loader derives adjacency only between existing nodes). -/
def SocialGraph.WF (g : SocialGraph) : Prop :=
  (g.nodes.map Prod.fst).Nodup ∧
  ∀ kv ∈ g.nodes, ∀ t ∈ kv.2.following, t ∈ g.nodes.map Prod.fst

instance (g : SocialGraph) : Decidable g.WF := by
  unfold SocialGraph.WF
  infer_instance

/-! ## Map bookkeeping lemmas for PageRank -/

theorem sumVals_nil : sumVals [] = 0 := rfl

theorem sumVals_cons (kv : Int × ℚ) (m : List (Int × ℚ)) :
    sumVals (kv :: m) = kv.2 + sumVals m := by
  simp [sumVals]

theorem sumVals_append (m1 m2 : List (Int × ℚ)) :
    sumVals (m1 ++ m2) = sumVals m1 + sumVals m2 := by
  simp [sumVals]

theorem containsKey_iff (m : List (Int × ℚ)) (k : Int) :
    containsKey m k = true ↔ k ∈ m.map Prod.fst := by
  simp only [containsKey, List.find?_isSome, List.mem_map, beq_iff_eq]

theorem mapAdd_map_untouched (m : List (Int × ℚ)) (k : Int) (x : ℚ)
    (h : k ∉ m.map Prod.fst) :
    m.map (fun kv => if kv.1 == k then (kv.1, kv.2 + x) else kv) = m := by
  conv_rhs => rw [← List.map_id m]
  apply List.map_congr_left
  intro kv hkv
  have : kv.1 ≠ k := by
    intro he
    exact h (List.mem_map.mpr ⟨kv, hkv, he⟩)
  simp [this]

theorem mapAdd_keys_present (m : List (Int × ℚ)) (k : Int) (x : ℚ)
    (h : k ∈ m.map Prod.fst) :
    (mapAdd m k x).map Prod.fst = m.map Prod.fst := by
  rw [mapAdd, if_pos ((containsKey_iff m k).mpr h), List.map_map]
  apply List.map_congr_left
  intro kv _
  by_cases hk : kv.1 = k <;> simp [hk]

theorem mapAdd_keys_absent (m : List (Int × ℚ)) (k : Int) (x : ℚ)
    (h : k ∉ m.map Prod.fst) :
    (mapAdd m k x).map Prod.fst = m.map Prod.fst ++ [k] := by
  rw [mapAdd, if_neg]
  · simp
  · intro hc
    exact h ((containsKey_iff m k).mp hc)

theorem mapAdd_nodup (m : List (Int × ℚ)) (k : Int) (x : ℚ)
    (h : (m.map Prod.fst).Nodup) : ((mapAdd m k x).map Prod.fst).Nodup := by
  by_cases hc : k ∈ m.map Prod.fst
  · rw [mapAdd_keys_present m k x hc]
    exact h
  · rw [mapAdd_keys_absent m k x hc]
    refine List.Nodup.append h (List.nodup_singleton k) ?_
    intro a ha hb
    rw [List.mem_singleton] at hb
    exact hc (hb ▸ ha)

theorem sum_mapAdd (m : List (Int × ℚ)) (k : Int) (x : ℚ)
    (h : (m.map Prod.fst).Nodup) : sumVals (mapAdd m k x) = sumVals m + x := by
  by_cases hc : k ∈ m.map Prod.fst
  · rw [mapAdd, if_pos ((containsKey_iff m k).mpr hc)]
    induction m with
    | nil => simp at hc
    | cons kv m ih =>
        simp only [List.map_cons, List.nodup_cons] at h
        rw [List.mem_map] at hc
        by_cases hk : kv.1 = k
        · have hnot : k ∉ m.map Prod.fst := hk ▸ h.1
          rw [List.map_cons, if_pos (by simp [hk]), mapAdd_map_untouched m k x hnot,
            sumVals_cons, sumVals_cons]
          ring
        · have hmem : k ∈ m.map Prod.fst := by
            rcases hc with ⟨kv2, hm2, he2⟩
            rcases List.mem_cons.mp hm2 with h' | h'
            · exact absurd (h' ▸ he2) hk
            · exact List.mem_map.mpr ⟨kv2, h', he2⟩
          rw [List.map_cons, if_neg (by simp [hk])]
          rw [sumVals_cons, sumVals_cons, ih h.2 hmem]
          ring
  · rw [mapAdd, if_neg (fun hcc => hc ((containsKey_iff m k).mp hcc)), sumVals_append,
      sumVals_cons, sumVals_nil]
    ring

theorem fold_mapAdd_facts (x : ℚ) (ts : List Int) :
    ∀ m : List (Int × ℚ), (m.map Prod.fst).Nodup → (∀ t ∈ ts, t ∈ m.map Prod.fst) →
      ((ts.foldl (fun nr t => mapAdd nr t x) m).map Prod.fst = m.map Prod.fst ∧
        sumVals (ts.foldl (fun nr t => mapAdd nr t x) m)
          = sumVals m + (ts.length : ℚ) * x) := by
  induction ts with
  | nil =>
      intro m _ _
      simp
  | cons t ts ih =>
      intro m hnd hmem
      have hpres : (mapAdd m t x).map Prod.fst = m.map Prod.fst :=
        mapAdd_keys_present m t x (hmem t (List.mem_cons_self t ts))
      obtain ⟨ka, sa⟩ := ih (mapAdd m t x) (hpres ▸ hnd)
        (fun u hu => hpres ▸ hmem u (List.mem_cons_of_mem t hu))
      refine ⟨?_, ?_⟩
      · rw [List.foldl_cons, ka, hpres]
      · rw [List.foldl_cons, sa, sum_mapAdd m t x hnd]
        simp only [List.length_cons]
        push_cast
        ring

theorem bump_all_facts (m : List (Int × ℚ)) (c : ℚ) :
    ((m.map (fun kv => (kv.1, kv.2 + c))).map Prod.fst = m.map Prod.fst) ∧
    sumVals (m.map (fun kv => (kv.1, kv.2 + c))) = sumVals m + (m.length : ℚ) * c := by
  constructor
  · rw [List.map_map]
    rfl
  · induction m with
    | nil => simp
    | cons kv m ih =>
        rw [List.map_cons, sumVals_cons, sumVals_cons, ih]
        simp only [List.length_cons]
        push_cast
        ring

theorem mapGet_cons_self (mv : Int × ℚ) (m : List (Int × ℚ)) (k : Int)
    (h : mv.1 = k) : mapGet (mv :: m) k = mv.2 := by
  simp [mapGet, List.find?_cons, h]

theorem mapGet_cons_ne (mv : Int × ℚ) (m : List (Int × ℚ)) (k : Int)
    (h : mv.1 ≠ k) : mapGet (mv :: m) k = mapGet m k := by
  simp [mapGet, List.find?_cons, h]

theorem sum_mapGet_eq_sumVals :
    ∀ (l : List (Int × Node)) (m : List (Int × ℚ)),
      m.map Prod.fst = l.map Prod.fst → (l.map Prod.fst).Nodup →
      (l.map (fun kv => mapGet m kv.1)).sum = sumVals m := by
  intro l
  induction l with
  | nil =>
      intro m h _
      cases m with
      | nil => simp [sumVals]
      | cons mv m' => simp at h
  | cons kv l ih =>
      intro m hk hnd
      cases m with
      | nil => simp at hk
      | cons mv m' =>
          simp only [List.map_cons, List.cons.injEq] at hk
          obtain ⟨hk1, hk2⟩ := hk
          simp only [List.map_cons, List.nodup_cons] at hnd
          rw [List.map_cons, List.sum_cons, mapGet_cons_self mv m' kv.1 hk1]
          have hcongr : l.map (fun kv2 => mapGet (mv :: m') kv2.1)
              = l.map (fun kv2 => mapGet m' kv2.1) := by
            apply List.map_congr_left
            intro kv2 hkv2
            apply mapGet_cons_ne
            rw [hk1]
            intro he
            exact hnd.1 (he ▸ List.mem_map.mpr ⟨kv2, hkv2, rfl⟩)
          rw [hcongr, ih m' hk2 hnd.2, sumVals_cons]

theorem sumVals_const_map (l : List (Int × Node)) (c : ℚ) :
    sumVals (l.map (fun kv => (kv.1, c))) = (l.length : ℚ) * c := by
  induction l with
  | nil => simp [sumVals]
  | cons kv l ih =>
      rw [List.map_cons, sumVals_cons, ih]
      simp only [List.length_cons]
      push_cast
      ring

theorem pagerank_body_facts (g : SocialGraph) (d : ℚ) (rank : List (Int × ℚ))
    (nr : List (Int × ℚ)) (kv : Int × Node)
    (hkeys : nr.map Prod.fst = g.nodes.map Prod.fst)
    (hnd : (g.nodes.map Prod.fst).Nodup)
    (hwf : ∀ t ∈ kv.2.following, t ∈ g.nodes.map Prod.fst)
    (hne : g.nodes ≠ []) :
    (pagerank_body g d rank nr kv).map Prod.fst = g.nodes.map Prod.fst ∧
    sumVals (pagerank_body g d rank nr kv) = sumVals nr + d * mapGet rank kv.1 := by
  unfold pagerank_body
  by_cases hout : 0 < kv.2.following.card
  · rw [if_pos hout]
    obtain ⟨ka, sa⟩ :=
      fold_mapAdd_facts (d * (mapGet rank kv.1 / ((kv.2.following.card : ℕ) : ℚ)))
        (ascElems kv.2.following) nr (by rw [hkeys]; exact hnd)
        (fun t ht => by rw [hkeys]; exact hwf t ((mem_ascElems _ _).mp ht))
    refine ⟨by rw [ka, hkeys], ?_⟩
    rw [sa, length_ascElems]
    have hc0 : ((kv.2.following.card : ℕ) : ℚ) ≠ 0 := by
      exact_mod_cast hout.ne'
    field_simp
  · rw [if_neg hout]
    obtain ⟨ka, sa⟩ :=
      bump_all_facts nr (d * mapGet rank kv.1 / ((g.nodes.length : ℕ) : ℚ))
    refine ⟨by rw [ka, hkeys], ?_⟩
    rw [sa]
    have hlen : nr.length = g.nodes.length := by
      have h := congrArg List.length hkeys
      simpa using h
    have hN : ((g.nodes.length : ℕ) : ℚ) ≠ 0 := by
      have hz : g.nodes.length ≠ 0 := fun h0 => hne (List.length_eq_zero.mp h0)
      exact_mod_cast hz
    rw [hlen]
    field_simp

theorem pagerank_fold_facts (g : SocialGraph) (d : ℚ) (rank : List (Int × ℚ))
    (hnd : (g.nodes.map Prod.fst).Nodup) (hne : g.nodes ≠ []) :
    ∀ (ns : List (Int × Node)) (nr : List (Int × ℚ)),
      nr.map Prod.fst = g.nodes.map Prod.fst →
      (∀ kv ∈ ns, ∀ t ∈ kv.2.following, t ∈ g.nodes.map Prod.fst) →
      ((ns.foldl (pagerank_body g d rank) nr).map Prod.fst = g.nodes.map Prod.fst ∧
        sumVals (ns.foldl (pagerank_body g d rank) nr)
          = sumVals nr + d * (ns.map (fun kv => mapGet rank kv.1)).sum) := by
  intro ns
  induction ns with
  | nil =>
      intro nr hkeys _
      simp [hkeys]
  | cons kv ns ih =>
      intro nr hkeys hwf
      obtain ⟨bk, bs⟩ := pagerank_body_facts g d rank nr kv hkeys hnd
        (hwf kv (List.mem_cons_self kv ns)) hne
      obtain ⟨fk, fs⟩ := ih (pagerank_body g d rank nr kv) bk
        (fun kv2 h2 => hwf kv2 (List.mem_cons_of_mem kv h2))
      refine ⟨by rw [List.foldl_cons, fk], ?_⟩
      rw [List.foldl_cons, fs, bs, List.map_cons, List.sum_cons]
      ring

theorem pagerank_iter_facts (g : SocialGraph) (d : ℚ) (rank : List (Int × ℚ))
    (hwf : g.WF) (hne : g.nodes ≠ [])
    (hrk : rank.map Prod.fst = g.nodes.map Prod.fst) :
    (pagerank_iter g d rank).map Prod.fst = g.nodes.map Prod.fst ∧
    sumVals (pagerank_iter g d rank) = 1 - d + d * sumVals rank := by
  unfold pagerank_iter
  have hbase : (g.nodes.map
      (fun kv => (kv.1, (1 - d) / ((g.nodes.length : ℕ) : ℚ)))).map Prod.fst
      = g.nodes.map Prod.fst := by
    rw [List.map_map]
    rfl
  obtain ⟨fk, fs⟩ := pagerank_fold_facts g d rank hwf.1 hne g.nodes _ hbase
    (fun kv h2 => hwf.2 kv h2)
  refine ⟨fk, ?_⟩
  rw [fs, sumVals_const_map, sum_mapGet_eq_sumVals g.nodes rank hrk hwf.1]
  have hN : ((g.nodes.length : ℕ) : ℚ) ≠ 0 := by
    have hz : g.nodes.length ≠ 0 := fun h0 => hne (List.length_eq_zero.mp h0)
    exact_mod_cast hz
  field_simp

theorem calculate_facts (g : SocialGraph) (d : ℚ) (iters : ℕ)
    (hwf : g.WF) (hne : g.nodes ≠ []) :
    (PageRankCalculator.calculate g d iters).map Prod.fst = g.nodes.map Prod.fst ∧
    sumVals (PageRankCalculator.calculate g d iters) = 1 := by
  have hz : g.nodes.length ≠ 0 := fun h0 => hne (List.length_eq_zero.mp h0)
  have hN : ((g.nodes.length : ℕ) : ℚ) ≠ 0 := by exact_mod_cast hz
  unfold PageRankCalculator.calculate
  simp only [hz, if_false, reduceIte]
  induction iters with
  | zero =>
      constructor
      · rw [Function.iterate_zero_apply, List.map_map]
        rfl
      · rw [Function.iterate_zero_apply, sumVals_const_map]
        field_simp
  | succ n ih =>
      rw [Function.iterate_succ_apply']
      obtain ⟨ik, is⟩ := pagerank_iter_facts g d _ hwf hne ih.1
      exact ⟨ik, by rw [is, ih.2]; ring⟩

/-! ## Claim C4 -/

/-- C4 counterexample: on the graph with no nodes the code returns the
empty map, whose total mass is 0, not 1.0; the claim as stated quantifies
over every graph. -/
theorem C4_counterexample :
    PageRankCalculator.calculate emptyGraph (85/100) 20 = [] ∧
    sumVals (PageRankCalculator.calculate emptyGraph (85/100) 20) ≠ 1 := by
  constructor
  · rfl
  · decide

/-- C4, corrected: for every well-formed graph with at least one node and
every damping factor and iteration count, the returned scores sum to
exactly 1 (dangling nodes redistribute their mass over all entries), and a
one-node graph gets score 1.0 for its node.  The original claim fails only
for the zero-node graph, where the code returns an empty map of mass 0. -/
theorem C4_mass_conserved (g : SocialGraph) (d : ℚ) (iters : ℕ)
    (hwf : g.WF) (hne : g.nodes ≠ []) (_hit : 1 ≤ iters) :
    sumVals (PageRankCalculator.calculate g d iters) = 1 ∧
    (∀ i n, g.nodes = [(i, n)] →
      PageRankCalculator.calculate g d iters = [(i, 1)]) := by
  obtain ⟨hkeys, hsum⟩ := calculate_facts g d iters hwf hne
  refine ⟨hsum, ?_⟩
  intro i n hg
  rw [hg] at hkeys
  cases hcalc : PageRankCalculator.calculate g d iters with
  | nil =>
      rw [hcalc] at hkeys
      simp at hkeys
  | cons kv rest =>
      rw [hcalc] at hkeys hsum
      cases rest with
      | nil =>
          simp only [List.map_cons, List.map_nil, List.cons.injEq, and_true] at hkeys
          rw [sumVals_cons, sumVals_nil, add_zero] at hsum
          rw [show kv = (kv.1, kv.2) from rfl, hkeys, hsum]
      | cons kv2 rest2 =>
          simp at hkeys

/-- C4 witness: a single dangling node (ID 5, follows nobody) keeps total
mass 1 after one iteration. -/
theorem C4_witness :
    sumVals (PageRankCalculator.calculate lonerGraph (85/100) 1) = 1 ∧
    PageRankCalculator.calculate lonerGraph (85/100) 1 = [(5, 1)] :=
  ⟨(C4_mass_conserved lonerGraph (85/100) 1 (by decide) (by decide) (by decide)).1,
    (C4_mass_conserved lonerGraph (85/100) 1 (by decide) (by decide) (by decide)).2
      5 (plainNode 5 ∅) rfl⟩

/-! ## Graph loading (`graph_generator.hpp`)

The three JSON files are external inputs; a data source is embedded as
`none` when the file cannot be opened or parsed (the load function then
returns `false` without touching the graph) and as `some` parsed records
when the whole array parses.  `last_update` is a timestamp string not
reachable through any accessor, so it is not part of the state. -/

/-- A parsed record of the nodes file. -/
structure NodeJson where
  user_id : Int
  name : String
  location : Location
  region_id : Int
  interests : List String
  created_at : String
deriving DecidableEq

/-- The `Node` built in the loop body of `loadNodesFromJSON`: profile
fields from the record, adjacency default-constructed empty. -/
def nodeFromJson (nj : NodeJson) : Node :=
  { user_id := nj.user_id, name := nj.name, location := nj.location,
    region_id := nj.region_id, interests := nj.interests,
    created_at := nj.created_at, neighbors := ∅, friends := ∅, following := ∅ }

/-- The map write `nodes[node.user_id] = node`: replace the stored node
wholesale when the key exists, insert otherwise. -/
def insertNode (nodes : List (Int × Node)) (n : Node) : List (Int × Node) :=
  if (nodes.find? (fun kv => kv.1 == n.user_id)).isSome then
    nodes.map (fun kv => if kv.1 == n.user_id then (kv.1, n) else kv)
  else nodes ++ [(n.user_id, n)]

/-- Embedding of `SocialGraph::loadNodesFromJSON`. -/
def loadNodesFromJSON (g : SocialGraph) (src : Option (List NodeJson)) :
    Bool × SocialGraph :=
  match src with
  | none => (false, g)
  | some arr =>
      (true, { g with nodes := arr.foldl (fun ns nj => insertNode ns (nodeFromJson nj)) g.nodes })

/-- Insert `b` into the neighbor set of the node stored under `a`. -/
def addNeighbor (nodes : List (Int × Node)) (a b : Int) : List (Int × Node) :=
  nodes.map (fun kv =>
    if kv.1 == a then (kv.1, { kv.2 with neighbors := insert b kv.2.neighbors }) else kv)

/-- The loop body of `loadEdgesFromJSON`: append the edge, then derive
adjacency in both directions when both endpoints exist. -/
def processEdge (g : SocialGraph) (e : Edge) : SocialGraph :=
  let g1 := { g with edges := g.edges ++ [e] }
  if (g1.nodes.find? (fun kv => kv.1 == e.source)).isSome ∧
      (g1.nodes.find? (fun kv => kv.1 == e.target)).isSome then
    { g1 with nodes := addNeighbor (addNeighbor g1.nodes e.source e.target) e.target e.source }
  else g1

/-- Embedding of `SocialGraph::loadEdgesFromJSON` (on a parsed array the
edge list is cleared first, then rebuilt). -/
def loadEdgesFromJSON (g : SocialGraph) (src : Option (List Edge)) :
    Bool × SocialGraph :=
  match src with
  | none => (false, g)
  | some arr => (true, arr.foldl processEdge { g with edges := [] })

/-- Embedding of `SocialGraph::loadMetadataFromJSON`. -/
def loadMetadataFromJSON (g : SocialGraph) (src : Option GraphMetadata) :
    Bool × SocialGraph :=
  match src with
  | none => (false, g)
  | some md => (true, { g with metadata := md })

/-- Embedding of `SocialGraph::initializeGraph`: the three loads in
sequence, stopping at the first failure.  There is no backup or rollback
in this function. -/
def initializeGraph (g : SocialGraph) (nodesFile : Option (List NodeJson))
    (edgesFile : Option (List Edge)) (metadataFile : Option GraphMetadata) :
    Bool × SocialGraph :=
  let r1 := loadNodesFromJSON g nodesFile
  if r1.1 = false then (false, r1.2)
  else
    let r2 := loadEdgesFromJSON r1.2 edgesFile
    if r2.1 = false then (false, r2.2)
    else
      let r3 := loadMetadataFromJSON r2.2 metadataFile
      if r3.1 = false then (false, r3.2)
      else (true, r3.2)

/-- Embedding of `SocialGraph::updateGraph`: back up the three state
components, clear every neighbor set, run the three loads, and restore the
backup on any failure. -/
def updateGraph (g : SocialGraph) (nodesFile : Option (List NodeJson))
    (edgesFile : Option (List Edge)) (metadataFile : Option GraphMetadata) :
    Bool × SocialGraph :=
  let backup : SocialGraph :=
    { nodes := g.nodes, edges := g.edges, metadata := g.metadata }
  let cleared : SocialGraph :=
    { g with nodes := g.nodes.map (fun kv => (kv.1, { kv.2 with neighbors := ∅ })) }
  let r1 := loadNodesFromJSON cleared nodesFile
  if r1.1 = false then (false, backup)
  else
    let r2 := loadEdgesFromJSON r1.2 edgesFile
    if r2.1 = false then (false, backup)
    else
      let r3 := loadMetadataFromJSON r2.2 metadataFile
      if r3.1 = false then (false, backup)
      else (true, r3.2)

/-! ## Claim C5 -/

/-- C5, refuted for `initializeGraph`: with a readable nodes file and an
unreadable edges file, the call reports failure but the freshly loaded
nodes remain observable (`getNodes` is no longer the prior empty state),
because `initializeGraph`, unlike `updateGraph`, performs no rollback.
`updateGraph` honors the contract: whenever it reports failure the graph
equals its prior state. -/
theorem C5_initialize_partial_load :
    ((initializeGraph emptyGraph
        (some [{ user_id := 1, name := "", location := { latitude := 0, longitude := 0 },
                 region_id := 0, interests := [], created_at := "" }])
        none (some sampleMeta)).1 = false ∧
     (initializeGraph emptyGraph
        (some [{ user_id := 1, name := "", location := { latitude := 0, longitude := 0 },
                 region_id := 0, interests := [], created_at := "" }])
        none (some sampleMeta)).2.nodes ≠ emptyGraph.nodes) ∧
    (∀ (g : SocialGraph) (nsrc : Option (List NodeJson)) (esrc : Option (List Edge))
        (msrc : Option GraphMetadata),
      (updateGraph g nsrc esrc msrc).1 = true ∨ (updateGraph g nsrc esrc msrc).2 = g) := by
  refine ⟨⟨by decide, by decide⟩, ?_⟩
  intro g nsrc esrc msrc
  cases nsrc with
  | none => exact Or.inr rfl
  | some narr =>
      cases esrc with
      | none => exact Or.inr rfl
      | some earr =>
          cases msrc with
          | none => exact Or.inr rfl
          | some md => exact Or.inl rfl

/-! ## Friendship score (`Features/friendshipscore.hpp`)

Doubles are embedded as rationals; the haversine distance (trigonometric
real arithmetic in `AlgoUtils::calculate_haversine_distance`) enters only
through its value, so it is a function parameter `hav` and every theorem
holds for all of them.  The recursion of `calculateScoreInternal` through
`calculateMutualFriendsScore` is given an explicit fuel that is spent
exactly at the recursive call sites (the C++ call stack depth): a `none`
result means the computation did not finish within that recursion depth,
and a result of `none` for every fuel means the C++ recursion never
returns.  The human-readable `explanation` string (stream formatting of
doubles) is not modelled; the result fields the early returns leave
uninitialized in C++ are modelled as 0. -/

structure FriendshipScoreResult where
  friendship_score : ℚ
  are_friends : Bool
  mutual_friends_count : ℕ
  message_count : Int
  mutual_friends_score : ℚ
  time_factor : ℚ
  geographic_proximity : ℚ
  common_interests_count : ℕ
deriving DecidableEq

/-- Embedding of `FriendshipScoreCalculator::getEdge`: the first stored
edge joining the two nodes in either orientation. -/
def getEdge (g : SocialGraph) (node1 node2 : Int) : Option Edge :=
  g.getEdges.find? (fun e =>
    (e.source == node1 && e.target == node2) ||
    (e.source == node2 && e.target == node1))

/-- The prefix-parsing behavior of `std::stoi`: skip leading whitespace,
an optional sign, then a nonempty run of digits (trailing characters are
ignored); `none` when no conversion can be performed (`std::stoi` throws
there, and `parseDate` catches). -/
def cppStoi (s : String) : Option Int :=
  let chars := s.toList.dropWhile (fun c => c == ' ' || c == '\t' || c == '\n')
  let digitsVal : List Char → Option Int := fun cs =>
    let ds := cs.takeWhile (fun c => c.isDigit)
    if ds.isEmpty then none
    else some (ds.foldl (fun acc c => acc * 10 + ((c.toNat : Int) - ('0'.toNat : Int))) 0)
  match chars with
  | '-' :: rest => (digitsVal rest).map (fun v => -v)
  | '+' :: rest => digitsVal rest
  | rest => digitsVal rest

/-- Embedding of `FriendshipScoreCalculator::parseDate`: approximate days
since epoch from the first 10 characters, 0 on any parse failure. -/
def parseDate (date_str : String) : Int :=
  if date_str = "" then 0
  else
    let date_part := date_str.toList.take 10
    if date_part.length ≠ 10 then 0
    else
      match cppStoi (String.mk (date_part.take 4)),
          cppStoi (String.mk ((date_part.drop 5).take 2)),
          cppStoi (String.mk ((date_part.drop 8).take 2)) with
      | some year, some month, some day => year * 365 + month * 30 + day
      | _, _, _ => 0

/-- Embedding of `FriendshipScoreCalculator::calculateTimeFactor`. -/
def calculateTimeFactor (established_at : String) : ℚ :=
  if established_at = "" then 0
  else
    let connection_date := parseDate established_at
    if connection_date = 0 then 0
    else
      let current_date : Int := 2024 * 365 + 1 * 30 + 5
      let days_connected : Int := max 0 (current_date - connection_date)
      min 1 ((days_connected : ℚ) / 365)

/-- Embedding of `FriendshipScoreCalculator::calculateGeographicProximity`
over the abstract distance function. -/
def calculateGeographicProximity (hav : ℚ → ℚ → ℚ → ℚ → ℚ)
    (lat1 lon1 lat2 lon2 : ℚ) : ℚ :=
  let distance_km := hav lat1 lon1 lat2 lon2
  max 0 (1 - distance_km / 1000)

/-- Lookup in the score cache (`std::map<pair<int,int>, double>`). -/
def cacheLookup (cache : List ((Int × Int) × ℚ)) (k : Int × Int) : Option ℚ :=
  (cache.find? (fun kv => kv.1 == k)).map (fun kv => kv.2)

/-- The write `score_cache[key] = v`. -/
def cacheStore (cache : List ((Int × Int) × ℚ)) (k : Int × Int) (v : ℚ) :
    List ((Int × Int) × ℚ) :=
  if (cache.find? (fun kv => kv.1 == k)).isSome then
    cache.map (fun kv => if kv.1 == k then (kv.1, v) else kv)
  else cache ++ [(k, v)]

/-- The final clamp of `calculateScoreInternal`: friends to [1, 2],
non-friends to [2, 3]. -/
def clampScore (are_friends : Bool) (raw_score : ℚ) : ℚ :=
  if are_friends then max 1 (min 2 raw_score) else max 2 (min 3 raw_score)

/-- The neutral result returned above the depth cap. -/
def neutralResult : FriendshipScoreResult :=
  { friendship_score := 3/2, are_friends := false, mutual_friends_count := 0,
    message_count := 0, mutual_friends_score := 0, time_factor := 0,
    geographic_proximity := 0, common_interests_count := 0 }

/-- The no-connection result returned when a node is absent. -/
def noConnectionResult : FriendshipScoreResult :=
  { friendship_score := 3, are_friends := false, mutual_friends_count := 0,
    message_count := 0, mutual_friends_score := 0, time_factor := 0,
    geographic_proximity := 0, common_interests_count := 0 }

/-- Embedding of `FriendshipScoreCalculator::calculateScoreInternal`.
The loop body of `calculateMutualFriendsScore` is inlined (the fold over
the ordered mutual-friend set) because its recursive sub-scoring calls
`calculateScoreInternal` again; note the C++ passes the constant depth 1
there, never `depth + 1`, which is exactly what this embedding mirrors.
Fuel is spent at each nested `calculateScoreInternal` invocation. -/
def calculateScoreInternal (g : SocialGraph) (hav : ℚ → ℚ → ℚ → ℚ → ℚ)
    (cache : List ((Int × Int) × ℚ)) :
    ℕ → Int → Int → Int → Option FriendshipScoreResult
  | 0, _, _, _ => none
  | fuel + 1, node1, node2, depth =>
    if 2 < depth then some neutralResult
    else
      match g.getNode node1, g.getNode node2 with
      | some n1, some n2 =>
        let edge := getEdge g node1 node2
        let node1Friends := g.getFriends node1
        let node2Friends := g.getFriends node2
        let are_friends : Bool :=
          (decide (node2 ∈ node1Friends) || decide (node1 ∈ node2Friends)) ||
            (match edge with
            | some e => e.relationship_type == "friend"
            | none => false)
        let message_count : Int :=
          match edge with
          | some e => e.message_count
          | none => 0
        let established_at : String :=
          match edge with
          | some e => e.established_at
          | none => ""
        let mutual_friends :=
          set_intersection_of_two (g.getFriends node1) (g.getFriends node2)
        let mutual_count := mutual_friends.card
        let sub : Option (ℚ × ℕ) :=
          (ascElems mutual_friends).foldl (fun acc mutualf =>
            match acc with
            | none => none
            | some tc =>
              let key1 := (min node1 mutualf, max node1 mutualf)
              let key2 := (min node2 mutualf, max node2 mutualf)
              let s1 : Option ℚ :=
                match cacheLookup cache key1 with
                | some v => some v
                | none =>
                    (calculateScoreInternal g hav cache fuel node1 mutualf 1).map
                      (fun r => r.friendship_score)
              let s2 : Option ℚ :=
                match cacheLookup cache key2 with
                | some v => some v
                | none =>
                    (calculateScoreInternal g hav cache fuel node2 mutualf 1).map
                      (fun r => r.friendship_score)
              match s1, s2 with
              | some score1, some score2 =>
                  some (tc.1 + (score1 + score2) / 2, tc.2 + 1)
              | _, _ => none) (some ((0 : ℚ), (0 : ℕ)))
        let mfsOpt : Option ℚ :=
          if mutual_friends = ∅ then some (3/2)
          else
            match sub with
            | none => none
            | some tc => some (if 0 < tc.2 then tc.1 / (tc.2 : ℚ) else 3/2)
        match mfsOpt with
        | none => none
        | some mutual_friends_score =>
          let time_factor := calculateTimeFactor established_at
          let geo_proximity := calculateGeographicProximity hav
            n1.location.latitude n1.location.longitude
            n2.location.latitude n2.location.longitude
          let interests_count := (find_common_items n1.interests n2.interests).length
          let base_score : ℚ := if are_friends then 3/2 else 5/2
          let mutual_factor : ℚ :=
            if 0 < mutual_count then -(3/10) * normalize_to_01 (mutual_count : ℚ) 10 else 0
          let message_factor : ℚ :=
            if 0 < message_count then -(1/4) * normalize_to_01 (message_count : ℚ) 1000 else 0
          let transitive_factor : ℚ :=
            if mutual_friends_score < 3/2 then
              -(3/20) * ((3/2 - mutual_friends_score) / (1/2))
            else 0
          let time_factor_impact : ℚ := -(3/20) * time_factor
          let geo_factor : ℚ := -(1/10) * geo_proximity
          let interests_factor : ℚ :=
            if 0 < interests_count then -(1/10) * normalize_to_01 (interests_count : ℚ) 5 else 0
          let raw_score := base_score + mutual_factor + message_factor +
            transitive_factor + time_factor_impact + geo_factor + interests_factor
          some { friendship_score := clampScore are_friends raw_score,
                 are_friends := are_friends,
                 mutual_friends_count := mutual_count,
                 message_count := message_count,
                 mutual_friends_score := mutual_friends_score,
                 time_factor := time_factor,
                 geographic_proximity := geo_proximity,
                 common_interests_count := interests_count }
      | _, _ => some noConnectionResult

/-- Embedding of `FriendshipScoreCalculator::calculateScore`: the public
entry point runs the internal computation at depth 0 with the current
cache and stores the finished score under the unordered pair key. -/
def calculateScore (g : SocialGraph) (hav : ℚ → ℚ → ℚ → ℚ → ℚ)
    (cache : List ((Int × Int) × ℚ)) (fuel : ℕ) (node1 node2 : Int) :
    Option (FriendshipScoreResult × List ((Int × Int) × ℚ)) :=
  let key := (min node1 node2, max node1 node2)
  match calculateScoreInternal g hav cache fuel node1 node2 0 with
  | none => none
  | some result => some (result, cacheStore cache key result.friendship_score)

/-- A triangle of mutual friends: every pair of the users 1, 2, 3 is a
friend pair, with no edge records. -/
def triangleGraph : SocialGraph :=
  { nodes := [(1, plainNode 1 {2, 3}), (2, plainNode 2 {1, 3}), (3, plainNode 3 {1, 2})],
    edges := [], metadata := sampleMeta }

/-- A concrete instance of the abstract haversine parameter. -/
def havZero : ℚ → ℚ → ℚ → ℚ → ℚ := fun _ _ _ _ => 0

/-! ## Claim C1 -/

/-- On the triangle, the sub-scoring of the pair (1, 2) at depth 1 needs
the pair (1, 3) and vice versa, always re-entering at the constant depth
1, so no fuel suffices. -/
theorem triangle_no_fuel (hav : ℚ → ℚ → ℚ → ℚ → ℚ) :
    ∀ fuel : ℕ,
      calculateScoreInternal triangleGraph hav [] fuel 1 2 1 = none ∧
      calculateScoreInternal triangleGraph hav [] fuel 1 3 1 = none := by
  intro fuel
  induction fuel with
  | zero => exact ⟨rfl, rfl⟩
  | succ fuel ih =>
      constructor
      · simp only [calculateScoreInternal]
        rw [show ascElems (set_intersection_of_two (triangleGraph.getFriends 1)
            (triangleGraph.getFriends 2)) = [3] from rfl]
        rw [if_neg (show ¬ (set_intersection_of_two (triangleGraph.getFriends 1)
            (triangleGraph.getFriends 2) = ∅) from by decide)]
        simp only [List.foldl_cons, List.foldl_nil, ih.2]
        rfl
      · simp only [calculateScoreInternal]
        rw [show ascElems (set_intersection_of_two (triangleGraph.getFriends 1)
            (triangleGraph.getFriends 3)) = [2] from rfl]
        rw [if_neg (show ¬ (set_intersection_of_two (triangleGraph.getFriends 1)
            (triangleGraph.getFriends 3) = ∅) from by decide)]
        simp only [List.foldl_cons, List.foldl_nil, ih.1]
        rfl

/-- C1, refuted: on a triangle of mutual friends, `calculateScore(1, 2)`
with a fresh (empty) cache exhausts every recursion budget: the
mutual-friend sub-scoring calls `calculateScoreInternal` with the constant
depth 1 instead of `depth + 1`, so the `depth > 2` cap is never reached
and the recursion (1,2) → (1,3) → (1,2) → … never returns. -/
theorem C1_unbounded_recursion (hav : ℚ → ℚ → ℚ → ℚ → ℚ) (fuel : ℕ) :
    calculateScore triangleGraph hav [] fuel 1 2 = none := by
  have hint : calculateScoreInternal triangleGraph hav [] fuel 1 2 0 = none := by
    cases fuel with
    | zero => rfl
    | succ fuel =>
        simp only [calculateScoreInternal]
        rw [show ascElems (set_intersection_of_two (triangleGraph.getFriends 1)
            (triangleGraph.getFriends 2)) = [3] from rfl]
        rw [if_neg (show ¬ (set_intersection_of_two (triangleGraph.getFriends 1)
            (triangleGraph.getFriends 2) = ∅) from by decide)]
        simp only [List.foldl_cons, List.foldl_nil, (triangle_no_fuel hav fuel).2]
        rfl
  rw [calculateScore, hint]

/-! ## Claim C2 -/

theorem clampScore_range (af : Bool) (raw : ℚ) :
    (af = true → 1 ≤ clampScore af raw ∧ clampScore af raw ≤ 2) ∧
    (af = false → 2 ≤ clampScore af raw ∧ clampScore af raw ≤ 3) := by
  cases af with
  | true =>
      refine ⟨fun _ => ⟨le_max_left 1 _, max_le (by norm_num) (min_le_left 2 raw)⟩,
        fun h => by simp at h⟩
  | false =>
      refine ⟨fun h => by simp at h,
        fun _ => ⟨le_max_left 2 _, max_le (by norm_num) (min_le_left 3 raw)⟩⟩

/-- Range of every result the internal computation produces at depth 0
(the only depth the public entry point uses). -/
theorem calculateScoreInternal_depth0_range (g : SocialGraph)
    (hav : ℚ → ℚ → ℚ → ℚ → ℚ) (cache : List ((Int × Int) × ℚ)) (fuel : ℕ)
    (node1 node2 : Int) (result : FriendshipScoreResult)
    (h : calculateScoreInternal g hav cache fuel node1 node2 0 = some result) :
    (result.are_friends = true →
      1 ≤ result.friendship_score ∧ result.friendship_score ≤ 2) ∧
    (result.are_friends = false →
      2 ≤ result.friendship_score ∧ result.friendship_score ≤ 3) := by
  cases fuel with
  | zero => exact absurd h (by simp [calculateScoreInternal])
  | succ fuel =>
      rw [calculateScoreInternal] at h
      rw [if_neg (by decide : ¬ (2 : Int) < 0)] at h
      rcases hg1 : g.getNode node1 with _ | n1 <;>
        rcases hg2 : g.getNode node2 with _ | n2 <;>
        rw [hg1, hg2] at h <;> dsimp only at h
      · rw [Option.some_inj] at h
        subst h
        exact ⟨fun hf => by simp [noConnectionResult] at hf,
          fun _ => by norm_num [noConnectionResult]⟩
      · rw [Option.some_inj] at h
        subst h
        exact ⟨fun hf => by simp [noConnectionResult] at hf,
          fun _ => by norm_num [noConnectionResult]⟩
      · rw [Option.some_inj] at h
        subst h
        exact ⟨fun hf => by simp [noConnectionResult] at hf,
          fun _ => by norm_num [noConnectionResult]⟩
      · split at h
        · exact absurd h (by simp)
        · rw [Option.some_inj] at h
          subst h
          exact clampScore_range _ _

/-- C2, confirmed: whenever the public `calculateScore` returns, the
returned score respects the hard range partition — friend pairs lie in
[1, 2] and non-friend pairs in [2, 3] — for every graph, cache state,
distance function, and pair of users, however extreme the message and
mutual-friend counts. -/
theorem C2_score_range_partition (g : SocialGraph) (hav : ℚ → ℚ → ℚ → ℚ → ℚ)
    (cache : List ((Int × Int) × ℚ)) (fuel : ℕ) (node1 node2 : Int)
    (res : FriendshipScoreResult × List ((Int × Int) × ℚ))
    (h : calculateScore g hav cache fuel node1 node2 = some res) :
    (res.1.are_friends = true →
      1 ≤ res.1.friendship_score ∧ res.1.friendship_score ≤ 2) ∧
    (res.1.are_friends = false →
      2 ≤ res.1.friendship_score ∧ res.1.friendship_score ≤ 3) := by
  rw [calculateScore] at h
  rcases hcsi : calculateScoreInternal g hav cache fuel node1 node2 0 with _ | result <;>
    rw [hcsi] at h
  · exact absurd h (by simp)
  · rw [Option.some_inj] at h
    have hres : res.1 = result := by rw [← h]
    rw [hres]
    exact calculateScoreInternal_depth0_range g hav cache fuel node1 node2 result hcsi

/-- C2 witness: a concrete run (absent users classified as non-friends
with score 3.0). -/
theorem C2_witness :
    2 ≤ (noConnectionResult, [(((1 : Int), (2 : Int)), (3 : ℚ))]).1.friendship_score ∧
    (noConnectionResult, [(((1 : Int), (2 : Int)), (3 : ℚ))]).1.friendship_score ≤ 3 :=
  (C2_score_range_partition emptyGraph havZero [] 1 1 2
    (noConnectionResult, [(((1 : Int), (2 : Int)), (3 : ℚ))]) (by decide)).2 (by decide)

/-! ## Shortest path (`Features/short_path.hpp`)

The two BFS variants use `unordered_map<int,int>` distance and parent
tables and FIFO queues; these are embedded as association lists and
`List Int`.  The while-loops get an explicit fuel parameter spent once per
outer iteration (one popped node for the simple BFS, one level pair for
the bidirectional search); `none` means the fuel ran out, and every
theorem quantifies over the fuel.  The parent-walk loops of the
reconstruction are bounded by `parents.length + 1` steps, enough for
every parent chain the algorithm builds. -/

/-- Generic association-list lookup (`find` on a `std::map` /
`unordered_map`). -/
def lookupL {α : Type} (m : List (Int × α)) (k : Int) : Option α :=
  (m.find? (fun kv => kv.1 == k)).map (fun kv => kv.2)

/-- Key-presence test (`count(k)` on an integer-keyed map). -/
def memL {α : Type} (m : List (Int × α)) (k : Int) : Bool :=
  (m.find? (fun kv => kv.1 == k)).isSome

/-- The assignment `m[k] = v`. -/
def setL {α : Type} (m : List (Int × α)) (k : Int) (v : α) : List (Int × α) :=
  if memL m k then m.map (fun kv => if kv.1 == k then (kv.1, v) else kv)
  else m ++ [(k, v)]

structure PathFindResult where
  path_exists : Bool
  path_node_ids : List Int
  path_length : Int
  path_description : String
deriving DecidableEq

/-- The textual `"a -> b -> c"` rendering of `create_success_result`. -/
def pathDescription (path_nodes : List Int) : String :=
  String.intercalate " -> " (path_nodes.map (fun i => toString i))

/-- Embedding of `OptimizedDistanceCalculator::create_success_result`. -/
def create_success_result (path_nodes : List Int) : PathFindResult :=
  { path_exists := true, path_node_ids := path_nodes,
    path_length := (path_nodes.length : Int) - 1,
    path_description := pathDescription path_nodes }

/-- Embedding of `OptimizedDistanceCalculator::create_failure_result`. -/
def create_failure_result : PathFindResult :=
  { path_exists := false, path_node_ids := [], path_length := -1,
    path_description := "" }

/-- Embedding of `OptimizedDistanceCalculator::encode_pair` (swap so the
smaller ID comes first, then combine; the caller's pre-normalization in
`find_path` is redundant with the internal swap). -/
def encode_pair (source target : Int) : Int :=
  if source > target then target * 1000000000 + source
  else source * 1000000000 + target

/-- The parent-walk of `simple_bfs` path reconstruction: push the current
node and follow `parent[current]` (a missing key reads as the
value-initialized 0) until the sentinel -1; bounded walk. -/
def walkParentD (parent : List (Int × Int)) : ℕ → Int → List Int
  | 0, _ => []
  | fuel + 1, current =>
      if current = -1 then []
      else current :: walkParentD parent fuel ((lookupL parent current).getD 0)

/-- The parent-walk of `reconstruct_path`: push the current node, then
follow the parent link when the map has one and stop otherwise; bounded
walk. -/
def walkParentB (parent : List (Int × Int)) : ℕ → Int → List Int
  | 0, _ => []
  | fuel + 1, current =>
      if current = -1 then []
      else
        current ::
          (match lookupL parent current with
          | some nxt => walkParentB parent fuel nxt
          | none => [])

/-- Embedding of `OptimizedDistanceCalculator::reconstruct_path`. -/
def reconstruct_path (meeting_node : Int) (parent_src parent_tgt : List (Int × Int)) :
    List Int :=
  let path_forward := (walkParentB parent_src (parent_src.length + 1) meeting_node).reverse
  let path_backward := walkParentB parent_tgt (parent_tgt.length + 1) meeting_node
  path_forward ++ path_backward.drop 1

/-- One node expansion of either frontier of the bidirectional search
(both C++ copies have this shape, with `otherDist` the opposite
direction's distance table): scan the outgoing set in ascending order,
stop at the first node already seen by the other side (the meeting node,
recorded in the own tables if absent), otherwise mark-and-collect fresh
nodes. -/
def scanDir (otherDist : List (Int × Int)) (ownDist ownParent : List (Int × Int))
    (u du : Int) : List Int → List Int × (List (Int × Int) × List (Int × Int)) × Option Int
  | [] => ([], (ownDist, ownParent), none)
  | v :: vs =>
      if memL otherDist v then
        if memL ownParent v then ([], (ownDist, ownParent), some v)
        else ([], (setL ownDist v (du + 1), setL ownParent v u), some v)
      else if memL ownDist v then scanDir otherDist ownDist ownParent u du vs
      else
        let r := scanDir otherDist (setL ownDist v (du + 1)) (setL ownParent v u) u du vs
        (v :: r.1, r.2)

/-- One full level of one direction of the bidirectional search: expand
every node of the captured level (the whole current queue), breaking out
at the first meeting node; returns the next queue, the updated own
tables, and the meeting node if any. -/
def levelDir (g : SocialGraph) (otherDist : List (Int × Int)) :
    List Int → List (Int × Int) → List (Int × Int) → List Int →
    List Int × (List (Int × Int) × List (Int × Int)) × Option Int
  | [], ownDist, ownParent, acc => (acc, (ownDist, ownParent), none)
  | u :: us, ownDist, ownParent, acc =>
      let du := (lookupL ownDist u).getD 0
      let r := scanDir otherDist ownDist ownParent u du (ascElems (g.getFollowing u))
      match r.2.2 with
      | some m => (acc ++ r.1, r.2.1, some m)
      | none => levelDir g otherDist us r.2.1.1 r.2.1.2 (acc ++ r.1)

/-- The four search tables of `bidirectional_bfs`. -/
structure BidState where
  dist_src : List (Int × Int)
  dist_tgt : List (Int × Int)
  parent_src : List (Int × Int)
  parent_tgt : List (Int × Int)
deriving DecidableEq

/-- One direction of one outer iteration: a level expansion when the
queue is nonempty (the C++ `if (!q.empty())` guards), otherwise no-op. -/
def dirStep (g : SocialGraph) (other : List (Int × Int)) (q : List Int)
    (d p : List (Int × Int)) :
    List Int × (List (Int × Int) × List (Int × Int)) × Option Int :=
  if q.isEmpty then (q, (d, p), none) else levelDir g other q d p []

/-- The outer while-loop of `bidirectional_bfs`: alternate one forward
level and one backward level until a meeting is found or both queues
drain.  `some none` is no-path loop exit, `some (some (m, st))` is a
meeting at `m`. -/
def biLoop (g : SocialGraph) : ℕ → List Int → List Int → BidState →
    Option (Option (Int × BidState))
  | 0, _, _, _ => none
  | fuel + 1, q_src, q_tgt, st =>
      if q_src.isEmpty ∧ q_tgt.isEmpty then some none
      else
        let rf := dirStep g st.dist_tgt q_src st.dist_src st.parent_src
        let st1 : BidState :=
          { st with dist_src := rf.2.1.1, parent_src := rf.2.1.2 }
        match rf.2.2 with
        | some m => some (some (m, st1))
        | none =>
            let rb := dirStep g st1.dist_src q_tgt st1.dist_tgt st1.parent_tgt
            let st2 : BidState :=
              { st1 with dist_tgt := rb.2.1.1, parent_tgt := rb.2.1.2 }
            match rb.2.2 with
            | some m => some (some (m, st2))
            | none => biLoop g fuel rf.1 rb.1 st2

/-- Embedding of `OptimizedDistanceCalculator::bidirectional_bfs`. -/
def bidirectional_bfs (g : SocialGraph) (fuel : ℕ) (source_id target_id : Int) :
    Option PathFindResult :=
  if source_id = target_id then some (create_success_result [source_id])
  else
    let st0 : BidState :=
      { dist_src := [(source_id, 0)], dist_tgt := [(target_id, 0)],
        parent_src := [(source_id, -1)], parent_tgt := [(target_id, -1)] }
    match biLoop g fuel [source_id] [target_id] st0 with
    | none => none
    | some none => some create_failure_result
    | some (some (meeting, st)) =>
        some (create_success_result (reconstruct_path meeting st.parent_src st.parent_tgt))

/-- The body of the simple BFS while-loop over one popped node `u`:
mark-and-push every unvisited outgoing neighbor. -/
def bfsExpand (q : List Int) (parent dist : List (Int × Int)) (u du : Int) :
    List Int → List Int × List (Int × Int) × List (Int × Int)
  | [] => (q, parent, dist)
  | v :: vs =>
      if memL dist v then bfsExpand q parent dist u du vs
      else bfsExpand (q ++ [v]) (setL parent v u) (setL dist v (du + 1)) u du vs

/-- The while-loop of `simple_bfs`. -/
def simpleBfsLoop (g : SocialGraph) (target_id : Int) :
    ℕ → List Int → List (Int × Int) → List (Int × Int) → Option PathFindResult
  | 0, _, _, _ => none
  | fuel + 1, q, parent, dist =>
      match q with
      | [] => some create_failure_result
      | u :: q' =>
          if u = target_id then
            some (create_success_result
              ((walkParentD parent (parent.length + 1) target_id).reverse))
          else
            let du := (lookupL dist u).getD 0
            let st := bfsExpand q' parent dist u du (ascElems (g.getFollowing u))
            simpleBfsLoop g target_id fuel st.1 st.2.1 st.2.2

/-- Embedding of `OptimizedDistanceCalculator::simple_bfs`. -/
def simple_bfs (g : SocialGraph) (fuel : ℕ) (source_id target_id : Int) :
    Option PathFindResult :=
  if source_id = target_id then some (create_success_result [source_id])
  else simpleBfsLoop g target_id fuel [source_id] [(source_id, -1)] [(source_id, 0)]

/-- Embedding of `OptimizedDistanceCalculator::compute_path_internal`:
bidirectional search with the single-source BFS fallback. -/
def compute_path_internal (g : SocialGraph) (fuel : ℕ) (source_id target_id : Int) :
    Option PathFindResult :=
  match bidirectional_bfs g fuel source_id target_id with
  | none => none
  | some result =>
      if result.path_exists then some result
      else simple_bfs g fuel source_id target_id

/-- The two memoization tables of `OptimizedDistanceCalculator`. -/
structure DistCalcState where
  cache : List (Int × Int)
  result_cache : List (Int × PathFindResult)
deriving DecidableEq

def emptyCalcState : DistCalcState := { cache := [], result_cache := [] }

/-- Embedding of `OptimizedDistanceCalculator::find_path`: answer from the
result cache when the unordered-pair key is present, otherwise compute and
memoize. -/
def find_path (g : SocialGraph) (st : DistCalcState) (fuel : ℕ)
    (source_id target_id : Int) : Option (PathFindResult × DistCalcState) :=
  let key := encode_pair source_id target_id
  match lookupL st.result_cache key with
  | some r => some (r, st)
  | none =>
      match compute_path_internal g fuel source_id target_id with
      | none => none
      | some r =>
          some (r,
            { result_cache := setL st.result_cache key r,
              cache := if r.path_exists then setL st.cache key r.path_length else st.cache })

/-! ## Reachability relations -/

/-- The directed following relation the search expands. -/
def follows (g : SocialGraph) (u v : Int) : Prop :=
  v ∈ g.getFollowing u

/-- Directed reachability along the following relation. -/
def Reaches (g : SocialGraph) : Int → Int → Prop :=
  Relation.ReflTransGen (follows g)

/-- One undirected step: an edge of the following relation in either
orientation. -/
def wstep (g : SocialGraph) (u v : Int) : Prop :=
  follows g u v ∨ follows g v u

/-- Undirected connectivity (the frontier of either direction of the
bidirectional search only grows inside the endpoint's weak component). -/
def WeakConn (g : SocialGraph) : Int → Int → Prop :=
  Relation.ReflTransGen (wstep g)

/-! ## Concrete directed graphs -/

/-- A node that follows exactly the IDs in `fol` (no friends, no
neighbors). -/
def followNode (uid : Int) (fol : Finset Int) : Node :=
  { user_id := uid, name := "", location := { latitude := 0, longitude := 0 },
    region_id := 0, interests := [], created_at := "",
    neighbors := ∅, friends := ∅, following := fol }

/-- Users 1 and 2 both follow 3; 3 follows nobody, so 2 is unreachable
from 1 although the bidirectional frontiers meet at 3. -/
def phantomGraph : SocialGraph :=
  { nodes := [(1, followNode 1 {3}), (2, followNode 2 {3}), (3, followNode 3 ∅)],
    edges := [], metadata := sampleMeta }

/-- A single directed follow edge 1 → 2. -/
def arrowGraph : SocialGraph :=
  { nodes := [(1, followNode 1 {2}), (2, followNode 2 ∅)],
    edges := [], metadata := sampleMeta }

/-- The calculator state after `find_path(1, 2)` on `arrowGraph`. -/
def arrowState : DistCalcState :=
  { cache := [(encode_pair 1 2, 1)],
    result_cache := [(encode_pair 1 2, create_success_result [1, 2])] }

/-- A directed chain 1 → 2 → 3 → 4. -/
def chainGraph : SocialGraph :=
  { nodes := [(1, followNode 1 {2}), (2, followNode 2 {3}), (3, followNode 3 {4}),
              (4, followNode 4 ∅)],
    edges := [], metadata := sampleMeta }

/-- The calculator state after a fresh `find_path(1, 4)` on `chainGraph`. -/
def chainState : DistCalcState :=
  { cache := [(encode_pair 1 4, 3)],
    result_cache := [(encode_pair 1 4, create_success_result [1, 2, 3, 4])] }

/-! ## Claim C3 counterexample -/

/-- C3 counterexample: on `phantomGraph` the backward frontier expands the
outgoing edge 2 → 3 as if it pointed toward the target, the frontiers
meet at 3, and `find_path(1, 2)` reports an existing path although 2 is
not reachable from 1 along the following relation: `path_exists` is not
equivalent to reachability. -/
theorem C3_counterexample :
    (find_path phantomGraph emptyCalcState 10 1 2).map (fun rc => rc.1.path_exists)
        = some true ∧
    ¬ Reaches phantomGraph 1 2 := by
  constructor
  · decide
  · intro h
    have key : ∀ x, Reaches phantomGraph 1 x → x = 1 ∨ x = 3 := by
      intro x hx
      induction hx with
      | refl => exact Or.inl rfl
      | @tail b c hab hst ih =>
          rcases ih with h1 | h1
          · subst h1
            have hm : c ∈ ({3} : Finset Int) := hst
            exact Or.inr (Finset.mem_singleton.mp hm)
          · subst h1
            have hm : c ∈ (∅ : Finset Int) := hst
            exact absurd hm (Finset.not_mem_empty c)
    rcases key 2 h with h1 | h1
    · exact absurd h1 (by decide)
    · exact absurd h1 (by decide)

/-! ## Claim C6 counterexample -/

/-- C6 counterexample: the cache key is the unordered pair, so after
`find_path(1, 2)` populates the cache on `arrowGraph`, the call
`find_path(2, 1)` is answered from the cache with the stored path
[1, 2] — which starts at 1, not at its source 2 (and 1 is not even
reachable from 2). -/
theorem C6_counterexample :
    find_path arrowGraph emptyCalcState 10 1 2
        = some (create_success_result [1, 2], arrowState) ∧
    find_path arrowGraph arrowState 10 2 1
        = some (create_success_result [1, 2], arrowState) ∧
    (create_success_result [1, 2]).path_node_ids.head? ≠ some 2 := by
  refine ⟨by decide, by decide, by decide⟩

/-! ## Association list facts for the search tables -/

theorem lookupL_mem {α : Type} (m : List (Int × α)) (k : Int) (v : α)
    (h : lookupL m k = some v) : (k, v) ∈ m := by
  unfold lookupL at h
  rcases hf : m.find? (fun kv => kv.1 == k) with _ | kv
  · rw [hf] at h
    simp at h
  · rw [hf] at h
    simp only [Option.map] at h
    have hm := List.mem_of_find?_eq_some hf
    have hp := List.find?_some hf
    simp only [beq_iff_eq] at hp
    have : kv = (k, v) := by
      obtain ⟨k1, v1⟩ := kv
      simp only at hp
      simp only [Option.some_inj] at h
      rw [hp, h]
    rw [← this]
    exact hm

theorem memL_iff_lookup {α : Type} (m : List (Int × α)) (k : Int) :
    memL m k = true ↔ ∃ v, lookupL m k = some v := by
  unfold memL lookupL
  cases hf : m.find? (fun kv => kv.1 == k) <;> simp [hf]

theorem memL_iff_keys {α : Type} (m : List (Int × α)) (k : Int) :
    memL m k = true ↔ k ∈ m.map Prod.fst := by
  simp only [memL, List.find?_isSome, List.mem_map, beq_iff_eq]

theorem memL_false_iff {α : Type} (m : List (Int × α)) (k : Int) :
    memL m k = false ↔ k ∉ m.map Prod.fst := by
  rw [← memL_iff_keys]
  cases h : memL m k <;> simp

theorem setL_absent {α : Type} (m : List (Int × α)) (k : Int) (v : α)
    (h : memL m k = false) : setL m k v = m ++ [(k, v)] := by
  rw [setL, h]
  simp

theorem memL_append {α : Type} (m l : List (Int × α)) (k : Int) :
    memL (m ++ l) k = (memL m k || memL l k) := by
  simp only [memL, List.find?_append]
  cases hf : m.find? (fun kv => kv.1 == k) <;> simp [hf, Option.or]

theorem lookupL_append_left {α : Type} (m l : List (Int × α)) (k : Int)
    (h : memL m k = true) : lookupL (m ++ l) k = lookupL m k := by
  simp only [lookupL, List.find?_append]
  cases hf : m.find? (fun kv => kv.1 == k) with
  | none =>
      rw [memL, hf] at h
      simp at h
  | some kv => simp [hf, Option.or]

theorem lookupL_append_right {α : Type} (m : List (Int × α)) (k : Int) (v : α)
    (h : memL m k = false) : lookupL (m ++ [(k, v)]) k = some v := by
  simp only [lookupL, List.find?_append]
  cases hf : m.find? (fun kv => kv.1 == k) with
  | none =>
      have hone : List.find? (fun kv => kv.1 == k) [(k, v)] = some (k, v) := by
        simp [List.find?]
      simp [hone, Option.or]
  | some kv =>
      rw [memL, hf] at h
      simp at h

/-! ## Rooted parent forests and the reconstruction walks -/

/-- The parent table invariant both searches maintain: the root maps to
the sentinel -1, and every other entry points to an entry of strictly
smaller rank, with ranks bounded by the table size. -/
def WellParented (p : List (Int × Int)) (root : Int) : Prop :=
  ∃ rank : Int → ℕ,
    lookupL p root = some (-1) ∧
    (∀ kv ∈ p, kv.1 = root ∨ (kv.2 ∈ p.map Prod.fst ∧ rank kv.2 < rank kv.1)) ∧
    (∀ kv ∈ p, rank kv.1 < p.length)

theorem WellParented.init (root : Int) : WellParented [(root, -1)] root := by
  refine ⟨fun _ => 0, ?_, ?_, ?_⟩
  · simp [lookupL, List.find?]
  · intro kv hkv
    rw [List.mem_singleton] at hkv
    exact Or.inl (by rw [hkv])
  · intro kv _
    simp

/-- Appending a fresh child pointing at an existing key preserves the
invariant. -/
theorem WellParented.add (p : List (Int × Int)) (root u v : Int)
    (hwp : WellParented p root) (hv : memL p v = false) (hu : memL p u = true) :
    WellParented (p ++ [(v, u)]) root := by
  obtain ⟨rank, hroot, hstep, hbound⟩ := hwp
  have hvkeys : v ∉ p.map Prod.fst := (memL_false_iff p v).mp hv
  have hukeys : u ∈ p.map Prod.fst := (memL_iff_keys p u).mp hu
  have hune : u ≠ v := fun he => hvkeys (he ▸ hukeys)
  have hrootmem : root ∈ p.map Prod.fst := by
    obtain ⟨w, hw⟩ : ∃ w, lookupL p root = some w := ⟨-1, hroot⟩
    exact List.mem_map.mpr ⟨(root, w), lookupL_mem p root w hw, rfl⟩
  have hrne : root ≠ v := fun he => hvkeys (he ▸ hrootmem)
  refine ⟨fun x => if x = v then rank u + 1 else rank x, ?_, ?_, ?_⟩
  · rw [lookupL_append_left p _ root ((memL_iff_keys p root).mpr hrootmem)]
    exact hroot
  · intro kv hkv
    rcases List.mem_append.mp hkv with hin | hin
    · rcases hstep kv hin with h1 | h1
      · exact Or.inl h1
      · refine Or.inr ⟨by rw [List.map_append]; exact List.mem_append_left _ h1.1, ?_⟩
        have h2 : kv.2 ≠ v := fun he => hvkeys (he ▸ h1.1)
        have h3 : kv.1 ≠ v := fun he =>
          hvkeys (he ▸ List.mem_map.mpr ⟨kv, hin, rfl⟩)
        simp only [if_neg h2, if_neg h3]
        exact h1.2
    · rw [List.mem_singleton] at hin
      rw [hin]
      refine Or.inr ⟨?_, ?_⟩
      · rw [List.map_append]
        exact List.mem_append_left _ hukeys
      · simp [hune]
  · intro kv hkv
    rw [List.length_append]
    rcases List.mem_append.mp hkv with hin | hin
    · have h3 : kv.1 ≠ v := fun he => hvkeys (he ▸ List.mem_map.mpr ⟨kv, hin, rfl⟩)
      simp only [if_neg h3]
      have := hbound kv hin
      omega
    · rw [List.mem_singleton] at hin
      rw [hin]
      obtain ⟨kw, hkw, hkweq⟩ := List.mem_map.mp hukeys
      have hb := hbound kw hkw
      rw [hkweq] at hb
      simp
      omega

theorem walkParentB_neg_one (p : List (Int × Int)) (fuel : ℕ) :
    walkParentB p fuel (-1) = [] := by
  cases fuel <;> rfl

theorem walkParentD_neg_one (p : List (Int × Int)) (fuel : ℕ) :
    walkParentD p fuel (-1) = [] := by
  cases fuel <;> rfl

theorem walkParentB_to_root (p : List (Int × Int)) (root : Int)
    (hwp : WellParented p root) (hpos : ∀ kv ∈ p, 0 ≤ kv.1) :
    ∀ k, memL p k = true → ∀ fuel, p.length < fuel →
      ∃ c, walkParentB p fuel k = k :: c ∧ (k :: c).getLast? = some root := by
  obtain ⟨rank, hroot, hstep, hbound⟩ := hwp
  suffices hcore : ∀ n k fuel, memL p k = true → rank k < n → rank k < fuel →
      ∃ c, walkParentB p fuel k = k :: c ∧ (k :: c).getLast? = some root by
    intro k hk fuel hfuel
    obtain ⟨v, hv⟩ := (memL_iff_lookup p k).mp hk
    have hrk : rank k < p.length := hbound (k, v) (lookupL_mem p k v hv)
    exact hcore (rank k + 1) k fuel hk (by omega) (by omega)
  intro n
  induction n with
  | zero =>
      intro k fuel _ h0 _
      omega
  | succ n ih =>
      intro k fuel hk hn hfuel
      obtain ⟨v, hv⟩ := (memL_iff_lookup p k).mp hk
      have hkp := lookupL_mem p k v hv
      have hknneg : 0 ≤ k := hpos (k, v) hkp
      have hkne : k ≠ -1 := by omega
      cases fuel with
      | zero => omega
      | succ f =>
          by_cases hveq : v = -1
          · have hkroot : k = root := by
              rcases hstep (k, v) hkp with h1 | h1
              · exact h1
              · exfalso
                rw [hveq] at h1
                obtain ⟨kv2, hkv2, hfst⟩ := List.mem_map.mp h1.1
                have := hpos kv2 hkv2
                omega
            refine ⟨[], ?_, by simp [hkroot]⟩
            simp only [walkParentB, if_neg hkne, hv, hveq]
            rw [walkParentB_neg_one]
          · have hne_root : k ≠ root := by
              intro he
              rw [he, hroot] at hv
              exact hveq (Option.some_inj.mp hv).symm
            rcases hstep (k, v) hkp with h1 | h1
            · exact absurd h1 hne_root
            · have hvmem : memL p v = true := (memL_iff_keys p v).mpr h1.1
              have hlt : rank v < rank k := h1.2
              obtain ⟨c', hc', hl'⟩ := ih v f hvmem (by omega) (by omega)
              refine ⟨v :: c', ?_, ?_⟩
              · simp only [walkParentB, if_neg hkne, hv]
                rw [hc']
              · rw [List.getLast?_cons_cons]
                exact hl'

theorem walkParentD_to_root (p : List (Int × Int)) (root : Int)
    (hwp : WellParented p root) (hpos : ∀ kv ∈ p, 0 ≤ kv.1) :
    ∀ k, memL p k = true → ∀ fuel, p.length < fuel →
      ∃ c, walkParentD p fuel k = k :: c ∧ (k :: c).getLast? = some root := by
  obtain ⟨rank, hroot, hstep, hbound⟩ := hwp
  suffices hcore : ∀ n k fuel, memL p k = true → rank k < n → rank k < fuel →
      ∃ c, walkParentD p fuel k = k :: c ∧ (k :: c).getLast? = some root by
    intro k hk fuel hfuel
    obtain ⟨v, hv⟩ := (memL_iff_lookup p k).mp hk
    have hrk : rank k < p.length := hbound (k, v) (lookupL_mem p k v hv)
    exact hcore (rank k + 1) k fuel hk (by omega) (by omega)
  intro n
  induction n with
  | zero =>
      intro k fuel _ h0 _
      omega
  | succ n ih =>
      intro k fuel hk hn hfuel
      obtain ⟨v, hv⟩ := (memL_iff_lookup p k).mp hk
      have hkp := lookupL_mem p k v hv
      have hknneg : 0 ≤ k := hpos (k, v) hkp
      have hkne : k ≠ -1 := by omega
      cases fuel with
      | zero => omega
      | succ f =>
          by_cases hveq : v = -1
          · have hkroot : k = root := by
              rcases hstep (k, v) hkp with h1 | h1
              · exact h1
              · exfalso
                rw [hveq] at h1
                obtain ⟨kv2, hkv2, hfst⟩ := List.mem_map.mp h1.1
                have := hpos kv2 hkv2
                omega
            refine ⟨[], ?_, by simp [hkroot]⟩
            simp only [walkParentD, if_neg hkne, hv, hveq, Option.getD_some]
            rw [walkParentD_neg_one]
          · have hne_root : k ≠ root := by
              intro he
              rw [he, hroot] at hv
              exact hveq (Option.some_inj.mp hv).symm
            rcases hstep (k, v) hkp with h1 | h1
            · exact absurd h1 hne_root
            · have hvmem : memL p v = true := (memL_iff_keys p v).mpr h1.1
              have hlt : rank v < rank k := h1.2
              obtain ⟨c', hc', hl'⟩ := ih v f hvmem (by omega) (by omega)
              refine ⟨v :: c', ?_, ?_⟩
              · simp only [walkParentD, if_neg hkne, hv, Option.getD_some]
                rw [hc']
              · rw [List.getLast?_cons_cons]
                exact hl'

/-- The spliced bidirectional path runs from the source root to the
target root whenever both parent tables are well-formed and contain the
meeting node. -/
theorem reconstruct_endpoints (ps pt : List (Int × Int)) (s t m : Int)
    (hwps : WellParented ps s) (hwpt : WellParented pt t)
    (hposs : ∀ kv ∈ ps, 0 ≤ kv.1) (hpost : ∀ kv ∈ pt, 0 ≤ kv.1)
    (hms : memL ps m = true) (hmt : memL pt m = true) :
    (reconstruct_path m ps pt).head? = some s ∧
    (reconstruct_path m ps pt).getLast? = some t := by
  obtain ⟨c, hc, hl⟩ :=
    walkParentB_to_root ps s hwps hposs m hms (ps.length + 1) (by omega)
  obtain ⟨c', hc', hl'⟩ :=
    walkParentB_to_root pt t hwpt hpost m hmt (pt.length + 1) (by omega)
  unfold reconstruct_path
  rw [hc, hc']
  have hrevne : (m :: c).reverse ≠ [] := by simp
  constructor
  · rw [List.head?_append_of_ne_nil _ hrevne, List.head?_reverse]
    exact hl
  · cases c' with
    | nil =>
        have hmt2 : m = t := by
          simp only [List.getLast?_singleton, Option.some_inj] at hl'
          exact hl'
        simp only [List.drop_succ_cons, List.drop_zero]
        rw [List.append_nil, List.getLast?_reverse]
        simp [hmt2]
    | cons x c'' =>
        simp only [List.drop_succ_cons, List.drop_zero]
        rw [List.getLast?_append_of_ne_nil _ (by simp)]
        rw [← List.getLast?_cons_cons (l := c'') (a := m) (b := x)]
        exact hl'

theorem setL_keys_present {α : Type} (m : List (Int × α)) (k : Int) (v : α)
    (h : memL m k = true) : (setL m k v).map Prod.fst = m.map Prod.fst := by
  rw [setL, if_pos h, List.map_map]
  apply List.map_congr_left
  intro kv _
  by_cases hk : kv.1 = k <;> simp [hk]

theorem memL_setL {α : Type} (m : List (Int × α)) (k k' : Int) (v : α) :
    memL (setL m k v) k' = true ↔ memL m k' = true ∨ k' = k := by
  by_cases h : memL m k
  · rw [memL_iff_keys, setL_keys_present m k v h, ← memL_iff_keys]
    constructor
    · exact Or.inl
    · rintro (h1 | h1)
      · exact h1
      · rw [h1]
        exact h
  · rw [setL, if_neg h, memL_iff_keys, List.map_append]
    simp only [List.mem_append, List.map_cons, List.map_nil, List.mem_singleton]
    rw [← memL_iff_keys]

theorem memL_setL_mono {α : Type} (m : List (Int × α)) (k k' : Int) (v : α)
    (h : memL m k' = true) : memL (setL m k v) k' = true :=
  (memL_setL m k k' v).mpr (Or.inl h)

theorem memL_setL_self {α : Type} (m : List (Int × α)) (k : Int) (v : α) :
    memL (setL m k v) k = true :=
  (memL_setL m k k v).mpr (Or.inr rfl)

theorem memL_setL_ne {α : Type} (m : List (Int × α)) (k k' : Int) (v : α)
    (h : k' ≠ k) : memL (setL m k v) k' = memL m k' := by
  by_cases hm : memL m k' = true
  · rw [hm, memL_setL_mono m k k' v hm]
  · have h1 : memL m k' = false := by
      cases h2 : memL m k'
      · rfl
      · exact absurd h2 hm
    rw [h1]
    cases h2 : memL (setL m k v) k'
    · rfl
    · rcases (memL_setL m k k' v).mp h2 with h3 | h3
      · exact absurd h3 hm
      · exact absurd h3 h

/-- Facts about one expansion step of the simple BFS: distances grow by
exactly the scanned successors, every pushed node is recorded, the old
queue survives, every recorded node was pushed or already known, and
recorded nodes stay reachable from the source. -/
theorem bfsExpand_A (g : SocialGraph) (s u du : Int) (hru : Reaches g s u) :
    ∀ (vs : List Int) (q : List Int) (parent dist : List (Int × Int)),
      (∀ v ∈ vs, follows g u v) →
      (∀ w ∈ q, memL dist w = true) →
      (∀ x, memL dist x = true → Reaches g s x) →
      ((∀ x, memL dist x = true → memL (bfsExpand q parent dist u du vs).2.2 x = true) ∧
        (∀ x, memL (bfsExpand q parent dist u du vs).2.2 x = true →
          memL dist x = true ∨ x ∈ vs) ∧
        (∀ v ∈ vs, memL (bfsExpand q parent dist u du vs).2.2 v = true) ∧
        (∀ w ∈ (bfsExpand q parent dist u du vs).1,
          memL (bfsExpand q parent dist u du vs).2.2 w = true) ∧
        (∀ w ∈ q, w ∈ (bfsExpand q parent dist u du vs).1) ∧
        (∀ x, memL (bfsExpand q parent dist u du vs).2.2 x = true →
          memL dist x = true ∨ x ∈ (bfsExpand q parent dist u du vs).1) ∧
        (∀ x, memL (bfsExpand q parent dist u du vs).2.2 x = true → Reaches g s x)) := by
  intro vs
  induction vs with
  | nil =>
      intro q parent dist _ hq hreach
      exact ⟨fun _ hx => hx, fun _ hx => Or.inl hx, by simp, hq,
        fun _ hw => hw, fun _ hx => Or.inl hx, hreach⟩
  | cons v vs ih =>
      intro q parent dist hvs hq hreach
      by_cases hv : memL dist v = true
      · have hbe : bfsExpand q parent dist u du (v :: vs)
            = bfsExpand q parent dist u du vs := by
          simp only [bfsExpand]
          rw [if_pos hv]
        obtain ⟨a1, a2, a3, a4, a5, a6, a7⟩ :=
          ih q parent dist (fun w hw => hvs w (List.mem_cons_of_mem v hw)) hq hreach
        rw [hbe]
        refine ⟨a1, fun x hx => (a2 x hx).imp id (List.mem_cons_of_mem v), ?_, a4, a5, a6, a7⟩
        intro w hw
        rcases List.mem_cons.mp hw with he | hm
        · exact he ▸ a1 v hv
        · exact a3 w hm
      · have hbe : bfsExpand q parent dist u du (v :: vs)
            = bfsExpand (q ++ [v]) (setL parent v u) (setL dist v (du + 1)) u du vs := by
          simp only [bfsExpand]
          rw [if_neg hv]
        have hq1 : ∀ w ∈ q ++ [v], memL (setL dist v (du + 1)) w = true := by
          intro w hw
          rcases List.mem_append.mp hw with h1 | h1
          · exact memL_setL_mono _ _ _ _ (hq w h1)
          · rw [List.mem_singleton] at h1
            rw [h1]
            exact memL_setL_self _ _ _
        have hreach1 : ∀ x, memL (setL dist v (du + 1)) x = true → Reaches g s x := by
          intro x hx
          rcases (memL_setL _ _ _ _).mp hx with h1 | h1
          · exact hreach x h1
          · rw [h1]
            exact hru.tail (hvs v (List.mem_cons_self v vs))
        obtain ⟨a1, a2, a3, a4, a5, a6, a7⟩ :=
          ih (q ++ [v]) (setL parent v u) (setL dist v (du + 1))
            (fun w hw => hvs w (List.mem_cons_of_mem v hw)) hq1 hreach1
        rw [hbe]
        refine ⟨?_, ?_, ?_, a4, ?_, ?_, a7⟩
        · intro x hx
          exact a1 x (memL_setL_mono _ _ _ _ hx)
        · intro x hx
          rcases a2 x hx with h1 | h1
          · rcases (memL_setL _ _ _ _).mp h1 with h2 | h2
            · exact Or.inl h2
            · exact Or.inr (h2 ▸ List.mem_cons_self v vs)
          · exact Or.inr (List.mem_cons_of_mem v h1)
        · intro w hw
          rcases List.mem_cons.mp hw with he | hm
          · exact he ▸ a1 v (memL_setL_self _ _ _)
          · exact a3 w hm
        · intro w hw
          exact a5 w (List.mem_append_left _ hw)
        · intro x hx
          rcases a6 x hx with h1 | h1
          · rcases (memL_setL _ _ _ _).mp h1 with h2 | h2
            · exact Or.inl h2
            · refine Or.inr ?_
              rw [h2]
              exact a5 v (List.mem_append_right _ (List.mem_singleton.mpr rfl))
          · exact Or.inr h1

/-- Facts about one expansion step of the simple BFS on the parent side:
the parent table stays a well-formed forest with nonnegative keys in sync
with the distance table. -/
theorem bfsExpand_B (s u du : Int) :
    ∀ (vs : List Int) (q : List Int) (parent dist : List (Int × Int)),
      (∀ v ∈ vs, 0 ≤ v) →
      (∀ x, memL dist x = memL parent x) →
      WellParented parent s →
      (∀ kv ∈ parent, 0 ≤ kv.1) →
      memL parent u = true →
      (∀ w ∈ q, memL dist w = true) →
      ((∀ x, memL (bfsExpand q parent dist u du vs).2.2 x
          = memL (bfsExpand q parent dist u du vs).2.1 x) ∧
        WellParented (bfsExpand q parent dist u du vs).2.1 s ∧
        (∀ kv ∈ (bfsExpand q parent dist u du vs).2.1, 0 ≤ kv.1) ∧
        (∀ x, memL parent x = true →
          memL (bfsExpand q parent dist u du vs).2.1 x = true) ∧
        (∀ w ∈ (bfsExpand q parent dist u du vs).1,
          memL (bfsExpand q parent dist u du vs).2.2 w = true)) := by
  intro vs
  induction vs with
  | nil =>
      intro q parent dist _ hkeq hwp hpos hu hq
      exact ⟨hkeq, hwp, hpos, fun _ hx => hx, hq⟩
  | cons v vs ih =>
      intro q parent dist hvs hkeq hwp hpos hu hq
      by_cases hv : memL dist v = true
      · have hbe : bfsExpand q parent dist u du (v :: vs)
            = bfsExpand q parent dist u du vs := by
          simp only [bfsExpand]
          rw [if_pos hv]
        rw [hbe]
        exact ih q parent dist (fun w hw => hvs w (List.mem_cons_of_mem v hw))
          hkeq hwp hpos hu hq
      · have hvf : memL dist v = false := by
          cases h2 : memL dist v
          · rfl
          · exact absurd h2 hv
        have hvp : memL parent v = false := by rw [← hkeq]; exact hvf
        have hbe : bfsExpand q parent dist u du (v :: vs)
            = bfsExpand (q ++ [v]) (setL parent v u) (setL dist v (du + 1)) u du vs := by
          simp only [bfsExpand]
          rw [if_neg hv]
        have hp1 : setL parent v u = parent ++ [(v, u)] := setL_absent parent v u hvp
        have hwp1 : WellParented (setL parent v u) s := by
          rw [hp1]
          exact WellParented.add parent s u v hwp hvp hu
        have hpos1 : ∀ kv ∈ setL parent v u, 0 ≤ kv.1 := by
          rw [hp1]
          intro kv hkv
          rcases List.mem_append.mp hkv with h1 | h1
          · exact hpos kv h1
          · rw [List.mem_singleton] at h1
            rw [h1]
            exact hvs v (List.mem_cons_self v vs)
        have hkeq1 : ∀ x, memL (setL dist v (du + 1)) x = memL (setL parent v u) x := by
          intro x
          by_cases hx : x = v
          · rw [hx, memL_setL_self, memL_setL_self]
          · rw [memL_setL_ne _ _ _ _ hx, memL_setL_ne _ _ _ _ hx]
            exact hkeq x
        have hu1 : memL (setL parent v u) u = true := memL_setL_mono _ _ _ _ hu
        have hq1 : ∀ w ∈ q ++ [v], memL (setL dist v (du + 1)) w = true := by
          intro w hw
          rcases List.mem_append.mp hw with h1 | h1
          · exact memL_setL_mono _ _ _ _ (hq w h1)
          · rw [List.mem_singleton] at h1
            rw [h1]
            exact memL_setL_self _ _ _
        rw [hbe]
        obtain ⟨b1, b2, b3, b4, b5⟩ :=
          ih (q ++ [v]) (setL parent v u) (setL dist v (du + 1))
            (fun w hw => hvs w (List.mem_cons_of_mem v hw)) hkeq1 hwp1 hpos1 hu1 hq1
        exact ⟨b1, b2, b3, fun x hx => b4 x (memL_setL_mono _ _ _ _ hx), b5⟩

/-- Any set of visited nodes that contains the source and is closed under
the following relation contains everything reachable from the source. -/
theorem reach_in_closed (g : SocialGraph) (dist : List (Int × Int)) (s : Int)
    (hclosed : ∀ k, memL dist k = true → ∀ v, follows g k v → memL dist v = true)
    (hs : memL dist s = true) :
    ∀ x, Reaches g s x → memL dist x = true := by
  intro x hx
  induction hx with
  | refl => exact hs
  | @tail b c _ hst ih => exact hclosed b ih c hst

/-- Existence-correctness of the simple BFS loop: a success means the
target is reachable from the source, a failure that it is not. -/
theorem simpleBfsLoop_A (g : SocialGraph) (s t : Int) :
    ∀ (fuel : ℕ) (q : List Int) (parent dist : List (Int × Int)) (r : PathFindResult),
      (∀ k, memL dist k = true →
        k ∈ q ∨ ∀ v, follows g k v → memL dist v = true) →
      (memL dist t = true → t ∈ q) →
      (∀ w ∈ q, memL dist w = true) →
      (∀ x, memL dist x = true → Reaches g s x) →
      memL dist s = true →
      simpleBfsLoop g t fuel q parent dist = some r →
      (r.path_exists = true → Reaches g s t) ∧
      (r.path_exists = false → ¬ Reaches g s t) := by
  intro fuel
  induction fuel with
  | zero =>
      intro q parent dist r _ _ _ _ _ h
      exact absurd h (by simp [simpleBfsLoop])
  | succ fuel ih =>
      intro q parent dist r hclosed ht hq hreach hs h
      cases q with
      | nil =>
          simp only [simpleBfsLoop, Option.some_inj] at h
          constructor
          · intro hx
            rw [← h] at hx
            simp [create_failure_result] at hx
          · intro _ hreacht
            have hcl : ∀ k, memL dist k = true → ∀ v, follows g k v →
                memL dist v = true := by
              intro k hk
              rcases hclosed k hk with h1 | h1
              · exact absurd h1 (List.not_mem_nil k)
              · exact h1
            have hmemt := reach_in_closed g dist s hcl hs t hreacht
            exact absurd (ht hmemt) (List.not_mem_nil t)
      | cons u q' =>
          simp only [simpleBfsLoop] at h
          by_cases hu : u = t
          · rw [if_pos hu] at h
            rw [Option.some_inj] at h
            constructor
            · intro _
              have hmem : memL dist t = true := hu ▸ hq u (List.mem_cons_self u q')
              exact hreach t hmem
            · intro hf
              rw [← h] at hf
              simp [create_success_result] at hf
          · rw [if_neg hu] at h
            have hqt : ∀ w ∈ q', memL dist w = true :=
              fun w hw => hq w (List.mem_cons_of_mem u hw)
            have hud : memL dist u = true := hq u (List.mem_cons_self u q')
            obtain ⟨a1, a2, a3, a4, a5, a6, a7⟩ :=
              bfsExpand_A g s u ((lookupL dist u).getD 0) (hreach u hud)
                (ascElems (g.getFollowing u)) q' parent dist
                (fun v hv => (mem_ascElems _ _).mp hv) hqt hreach
            refine ih _ _ _ r ?_ ?_ a4 a7 (a1 s hs) h
            · intro k hk
              rcases a6 k hk with hold | hq2
              · rcases hclosed k hold with hin | hcl
                · rcases List.mem_cons.mp hin with he | hq'
                  · refine Or.inr ?_
                    intro v hv
                    exact a3 v ((mem_ascElems _ _).mpr (he ▸ hv))
                  · exact Or.inl (a5 k hq')
                · exact Or.inr (fun v hv => a1 v (hcl v hv))
              · exact Or.inl hq2
            · intro hk
              rcases a6 t hk with hold | hq2
              · rcases List.mem_cons.mp (ht hold) with he | hq'
                · exact absurd he.symm hu
                · exact a5 t hq'
              · exact hq2

/-- Path-endpoint correctness of the simple BFS loop: a successful result
starts at the source root of the parent forest and ends at the target. -/
theorem simpleBfsLoop_B (g : SocialGraph) (s t : Int) :
    ∀ (fuel : ℕ) (q : List Int) (parent dist : List (Int × Int)) (r : PathFindResult),
      (∀ u v : Int, follows g u v → 0 ≤ v) →
      (∀ x, memL dist x = memL parent x) →
      WellParented parent s →
      (∀ kv ∈ parent, 0 ≤ kv.1) →
      (∀ w ∈ q, memL dist w = true) →
      simpleBfsLoop g t fuel q parent dist = some r →
      r.path_exists = true →
      r.path_node_ids.head? = some s ∧ r.path_node_ids.getLast? = some t := by
  intro fuel
  induction fuel with
  | zero =>
      intro q parent dist r _ _ _ _ _ h
      exact absurd h (by simp [simpleBfsLoop])
  | succ fuel ih =>
      intro q parent dist r hgnn hkeq hwp hpos hq h hx
      cases q with
      | nil =>
          simp only [simpleBfsLoop, Option.some_inj] at h
          rw [← h] at hx
          simp [create_failure_result] at hx
      | cons u q' =>
          simp only [simpleBfsLoop] at h
          by_cases hu : u = t
          · rw [if_pos hu] at h
            rw [Option.some_inj] at h
            have hmem : memL parent t = true := by
              rw [← hkeq]
              exact hu ▸ hq u (List.mem_cons_self u q')
            obtain ⟨c, hc, hl⟩ :=
              walkParentD_to_root parent s hwp hpos t hmem (parent.length + 1) (by omega)
            rw [← h]
            simp only [create_success_result]
            rw [hc]
            constructor
            · rw [List.head?_reverse]
              exact hl
            · rw [List.getLast?_reverse]
              rfl
          · rw [if_neg hu] at h
            have hqt : ∀ w ∈ q', memL dist w = true :=
              fun w hw => hq w (List.mem_cons_of_mem u hw)
            have hup : memL parent u = true := by
              rw [← hkeq]
              exact hq u (List.mem_cons_self u q')
            obtain ⟨b1, b2, b3, b4, b5⟩ :=
              bfsExpand_B s u ((lookupL dist u).getD 0) (ascElems (g.getFollowing u))
                q' parent dist
                (fun v hv => hgnn u v ((mem_ascElems _ _).mp hv))
                hkeq hwp hpos hup hqt
            exact ih _ _ _ r hgnn b1 b2 b3 b5 h hx

/-- Weak-connectivity facts about one node expansion of a frontier: every
newly recorded node stays weakly connected to the frontier's root, and a
meeting node is already known to the other side and weakly connected to
this root. -/
theorem scanDir_A (g : SocialGraph) (root u : Int) (hu : WeakConn g root u)
    (otherDist : List (Int × Int)) (du : Int) :
    ∀ (vs : List Int) (ownDist ownParent : List (Int × Int)),
      (∀ v ∈ vs, wstep g u v) →
      (∀ k, memL ownDist k = true → WeakConn g root k) →
      ((∀ k, memL (scanDir otherDist ownDist ownParent u du vs).2.1.1 k = true →
          WeakConn g root k) ∧
        (∀ x, memL ownDist x = true →
          memL (scanDir otherDist ownDist ownParent u du vs).2.1.1 x = true) ∧
        (∀ w ∈ (scanDir otherDist ownDist ownParent u du vs).1,
          memL (scanDir otherDist ownDist ownParent u du vs).2.1.1 w = true) ∧
        (∀ m, (scanDir otherDist ownDist ownParent u du vs).2.2 = some m →
          memL otherDist m = true ∧ WeakConn g root m)) := by
  intro vs
  induction vs with
  | nil =>
      intro ownDist ownParent _ hweak
      exact ⟨hweak, fun _ hx => hx, by simp [scanDir], by simp [scanDir]⟩
  | cons v vs ih =>
      intro ownDist ownParent hvs hweak
      have hwv : WeakConn g root v := hu.tail (hvs v (List.mem_cons_self v vs))
      by_cases ho : memL otherDist v = true
      · by_cases hp : memL ownParent v = true
        · have hbe : scanDir otherDist ownDist ownParent u du (v :: vs)
              = ([], (ownDist, ownParent), some v) := by
            simp only [scanDir]
            rw [if_pos ho, if_pos hp]
          rw [hbe]
          refine ⟨hweak, fun _ hx => hx, by simp, ?_⟩
          intro m hm
          rw [Option.some_inj] at hm
          exact hm ▸ ⟨ho, hwv⟩
        · have hbe : scanDir otherDist ownDist ownParent u du (v :: vs)
              = ([], (setL ownDist v (du + 1), setL ownParent v u), some v) := by
            simp only [scanDir]
            rw [if_pos ho, if_neg hp]
          rw [hbe]
          refine ⟨?_, ?_, by simp, ?_⟩
          · intro k hk
            rcases (memL_setL _ _ _ _).mp hk with h1 | h1
            · exact hweak k h1
            · exact h1 ▸ hwv
          · intro x hx
            exact memL_setL_mono _ _ _ _ hx
          · intro m hm
            rw [Option.some_inj] at hm
            exact hm ▸ ⟨ho, hwv⟩
      · by_cases hd : memL ownDist v = true
        · have hbe : scanDir otherDist ownDist ownParent u du (v :: vs)
              = scanDir otherDist ownDist ownParent u du vs := by
            simp only [scanDir]
            rw [if_neg ho, if_pos hd]
          rw [hbe]
          exact ih ownDist ownParent (fun w hw => hvs w (List.mem_cons_of_mem v hw)) hweak
        · have hbe : scanDir otherDist ownDist ownParent u du (v :: vs)
              = ((v :: (scanDir otherDist (setL ownDist v (du + 1))
                  (setL ownParent v u) u du vs).1),
                 (scanDir otherDist (setL ownDist v (du + 1))
                  (setL ownParent v u) u du vs).2) := by
            simp only [scanDir]
            rw [if_neg ho, if_neg hd]
          have hweak1 : ∀ k, memL (setL ownDist v (du + 1)) k = true →
              WeakConn g root k := by
            intro k hk
            rcases (memL_setL _ _ _ _).mp hk with h1 | h1
            · exact hweak k h1
            · exact h1 ▸ hwv
          obtain ⟨a1, a2, a3, a4⟩ :=
            ih (setL ownDist v (du + 1)) (setL ownParent v u)
              (fun w hw => hvs w (List.mem_cons_of_mem v hw)) hweak1
          rw [hbe]
          refine ⟨a1, ?_, ?_, a4⟩
          · intro x hx
            exact a2 x (memL_setL_mono _ _ _ _ hx)
          · intro w hw
            rcases List.mem_cons.mp hw with he | hm
            · exact he ▸ a2 v (memL_setL_self _ _ _)
            · exact a3 w hm

/-- Parent-forest facts about one node expansion of a frontier. -/
theorem scanDir_B (root u : Int) (otherDist : List (Int × Int)) (du : Int) :
    ∀ (vs : List Int) (ownDist ownParent : List (Int × Int)),
      (∀ v ∈ vs, 0 ≤ v) →
      (∀ x, memL ownDist x = memL ownParent x) →
      WellParented ownParent root →
      (∀ kv ∈ ownParent, 0 ≤ kv.1) →
      memL ownParent u = true →
      ((∀ x, memL (scanDir otherDist ownDist ownParent u du vs).2.1.1 x
          = memL (scanDir otherDist ownDist ownParent u du vs).2.1.2 x) ∧
        WellParented (scanDir otherDist ownDist ownParent u du vs).2.1.2 root ∧
        (∀ kv ∈ (scanDir otherDist ownDist ownParent u du vs).2.1.2, 0 ≤ kv.1) ∧
        (∀ x, memL ownParent x = true →
          memL (scanDir otherDist ownDist ownParent u du vs).2.1.2 x = true) ∧
        (∀ m, (scanDir otherDist ownDist ownParent u du vs).2.2 = some m →
          memL (scanDir otherDist ownDist ownParent u du vs).2.1.2 m = true ∧
            memL otherDist m = true) ∧
        (∀ w ∈ (scanDir otherDist ownDist ownParent u du vs).1,
          memL (scanDir otherDist ownDist ownParent u du vs).2.1.2 w = true)) := by
  intro vs
  induction vs with
  | nil =>
      intro ownDist ownParent _ hkeq hwp hpos _
      exact ⟨hkeq, hwp, hpos, fun _ hx => hx, by simp [scanDir], by simp [scanDir]⟩
  | cons v vs ih =>
      intro ownDist ownParent hvs hkeq hwp hpos hu
      have hv0 : 0 ≤ v := hvs v (List.mem_cons_self v vs)
      by_cases ho : memL otherDist v = true
      · by_cases hp : memL ownParent v = true
        · have hbe : scanDir otherDist ownDist ownParent u du (v :: vs)
              = ([], (ownDist, ownParent), some v) := by
            simp only [scanDir]
            rw [if_pos ho, if_pos hp]
          rw [hbe]
          refine ⟨hkeq, hwp, hpos, fun _ hx => hx, ?_, by simp⟩
          intro m hm
          rw [Option.some_inj] at hm
          exact hm ▸ ⟨hp, ho⟩
        · have hpf : memL ownParent v = false := by
            cases h2 : memL ownParent v
            · rfl
            · exact absurd h2 hp
          have hbe : scanDir otherDist ownDist ownParent u du (v :: vs)
              = ([], (setL ownDist v (du + 1), setL ownParent v u), some v) := by
            simp only [scanDir]
            rw [if_pos ho, if_neg hp]
          rw [hbe]
          have hp1 : setL ownParent v u = ownParent ++ [(v, u)] :=
            setL_absent ownParent v u hpf
          refine ⟨?_, ?_, ?_, ?_, ?_, by simp⟩
          · intro x
            by_cases hx : x = v
            · rw [hx, memL_setL_self, memL_setL_self]
            · rw [memL_setL_ne _ _ _ _ hx, memL_setL_ne _ _ _ _ hx]
              exact hkeq x
          · rw [hp1]
            exact WellParented.add ownParent root u v hwp hpf hu
          · rw [hp1]
            intro kv hkv
            rcases List.mem_append.mp hkv with h1 | h1
            · exact hpos kv h1
            · rw [List.mem_singleton] at h1
              rw [h1]
              exact hv0
          · intro x hx
            exact memL_setL_mono _ _ _ _ hx
          · intro m hm
            rw [Option.some_inj] at hm
            exact hm ▸ ⟨memL_setL_self _ _ _, ho⟩
      · by_cases hd : memL ownDist v = true
        · have hbe : scanDir otherDist ownDist ownParent u du (v :: vs)
              = scanDir otherDist ownDist ownParent u du vs := by
            simp only [scanDir]
            rw [if_neg ho, if_pos hd]
          rw [hbe]
          exact ih ownDist ownParent (fun w hw => hvs w (List.mem_cons_of_mem v hw))
            hkeq hwp hpos hu
        · have hdf : memL ownDist v = false := by
            cases h2 : memL ownDist v
            · rfl
            · exact absurd h2 hd
          have hpf : memL ownParent v = false := by rw [← hkeq]; exact hdf
          have hbe : scanDir otherDist ownDist ownParent u du (v :: vs)
              = ((v :: (scanDir otherDist (setL ownDist v (du + 1))
                  (setL ownParent v u) u du vs).1),
                 (scanDir otherDist (setL ownDist v (du + 1))
                  (setL ownParent v u) u du vs).2) := by
            simp only [scanDir]
            rw [if_neg ho, if_neg hd]
          have hp1 : setL ownParent v u = ownParent ++ [(v, u)] :=
            setL_absent ownParent v u hpf
          have hwp1 : WellParented (setL ownParent v u) root := by
            rw [hp1]
            exact WellParented.add ownParent root u v hwp hpf hu
          have hpos1 : ∀ kv ∈ setL ownParent v u, 0 ≤ kv.1 := by
            rw [hp1]
            intro kv hkv
            rcases List.mem_append.mp hkv with h1 | h1
            · exact hpos kv h1
            · rw [List.mem_singleton] at h1
              rw [h1]
              exact hv0
          have hkeq1 : ∀ x, memL (setL ownDist v (du + 1)) x
              = memL (setL ownParent v u) x := by
            intro x
            by_cases hx : x = v
            · rw [hx, memL_setL_self, memL_setL_self]
            · rw [memL_setL_ne _ _ _ _ hx, memL_setL_ne _ _ _ _ hx]
              exact hkeq x
          obtain ⟨b1, b2, b3, b4, b5, b6⟩ :=
            ih (setL ownDist v (du + 1)) (setL ownParent v u)
              (fun w hw => hvs w (List.mem_cons_of_mem v hw)) hkeq1 hwp1 hpos1
              (memL_setL_mono _ _ _ _ hu)
          rw [hbe]
          refine ⟨b1, b2, b3, fun x hx => b4 x (memL_setL_mono _ _ _ _ hx), b5, ?_⟩
          intro w hw
          rcases List.mem_cons.mp hw with he | hm
          · exact he ▸ b4 v (memL_setL_self _ _ _)
          · exact b6 w hm

/-- Weak-connectivity facts about one whole level of one direction. -/
theorem levelDir_A (g : SocialGraph) (root : Int) (otherDist : List (Int × Int)) :
    ∀ (us : List Int) (ownDist ownParent : List (Int × Int)) (acc : List Int),
      (∀ u ∈ us, memL ownDist u = true) →
      (∀ k, memL ownDist k = true → WeakConn g root k) →
      (∀ w ∈ acc, memL ownDist w = true) →
      ((∀ k, memL (levelDir g otherDist us ownDist ownParent acc).2.1.1 k = true →
          WeakConn g root k) ∧
        (∀ x, memL ownDist x = true →
          memL (levelDir g otherDist us ownDist ownParent acc).2.1.1 x = true) ∧
        (∀ w ∈ (levelDir g otherDist us ownDist ownParent acc).1,
          memL (levelDir g otherDist us ownDist ownParent acc).2.1.1 w = true) ∧
        (∀ m, (levelDir g otherDist us ownDist ownParent acc).2.2 = some m →
          memL otherDist m = true ∧ WeakConn g root m)) := by
  intro us
  induction us with
  | nil =>
      intro ownDist ownParent acc _ hweak hacc
      exact ⟨hweak, fun _ hx => hx, hacc, by simp [levelDir]⟩
  | cons u us ih =>
      intro ownDist ownParent acc hus hweak hacc
      have hwu : WeakConn g root u := hweak u (hus u (List.mem_cons_self u us))
      obtain ⟨a1, a2, a3, a4⟩ :=
        scanDir_A g root u hwu otherDist ((lookupL ownDist u).getD 0)
          (ascElems (g.getFollowing u)) ownDist ownParent
          (fun v hv => Or.inl ((mem_ascElems _ _).mp hv)) hweak
      cases hm : (scanDir otherDist ownDist ownParent u
          ((lookupL ownDist u).getD 0) (ascElems (g.getFollowing u))).2.2 with
      | some m =>
          have hbe : levelDir g otherDist (u :: us) ownDist ownParent acc
              = (acc ++ (scanDir otherDist ownDist ownParent u
                  ((lookupL ownDist u).getD 0) (ascElems (g.getFollowing u))).1,
                 (scanDir otherDist ownDist ownParent u
                  ((lookupL ownDist u).getD 0) (ascElems (g.getFollowing u))).2.1,
                 some m) := by
            simp only [levelDir]
            rw [hm]
          rw [hbe]
          refine ⟨a1, a2, ?_, ?_⟩
          · intro w hw
            rcases List.mem_append.mp hw with h1 | h1
            · exact a2 w (hacc w h1)
            · exact a3 w h1
          · intro m' hm'
            rw [Option.some_inj] at hm'
            exact hm' ▸ a4 m hm
      | none =>
          have hbe : levelDir g otherDist (u :: us) ownDist ownParent acc
              = levelDir g otherDist us
                 (scanDir otherDist ownDist ownParent u
                  ((lookupL ownDist u).getD 0) (ascElems (g.getFollowing u))).2.1.1
                 (scanDir otherDist ownDist ownParent u
                  ((lookupL ownDist u).getD 0) (ascElems (g.getFollowing u))).2.1.2
                 (acc ++ (scanDir otherDist ownDist ownParent u
                  ((lookupL ownDist u).getD 0) (ascElems (g.getFollowing u))).1) := by
            simp only [levelDir]
            rw [hm]
          rw [hbe]
          obtain ⟨c1, c2, c3, c4⟩ := ih _ _ _
            (fun w hw => a2 w (hus w (List.mem_cons_of_mem u hw))) a1
            (by
              intro w hw
              rcases List.mem_append.mp hw with h1 | h1
              · exact a2 w (hacc w h1)
              · exact a3 w h1)
          exact ⟨c1, fun x hx => c2 x (a2 x hx), c3, c4⟩

/-- Parent-forest facts about one whole level of one direction. -/
theorem levelDir_B (g : SocialGraph) (root : Int) (otherDist : List (Int × Int))
    (hgnn : ∀ u v : Int, follows g u v → 0 ≤ v) :
    ∀ (us : List Int) (ownDist ownParent : List (Int × Int)) (acc : List Int),
      (∀ u ∈ us, memL ownParent u = true) →
      (∀ x, memL ownDist x = memL ownParent x) →
      WellParented ownParent root →
      (∀ kv ∈ ownParent, 0 ≤ kv.1) →
      (∀ w ∈ acc, memL ownParent w = true) →
      ((∀ x, memL (levelDir g otherDist us ownDist ownParent acc).2.1.1 x
          = memL (levelDir g otherDist us ownDist ownParent acc).2.1.2 x) ∧
        WellParented (levelDir g otherDist us ownDist ownParent acc).2.1.2 root ∧
        (∀ kv ∈ (levelDir g otherDist us ownDist ownParent acc).2.1.2, 0 ≤ kv.1) ∧
        (∀ x, memL ownParent x = true →
          memL (levelDir g otherDist us ownDist ownParent acc).2.1.2 x = true) ∧
        (∀ m, (levelDir g otherDist us ownDist ownParent acc).2.2 = some m →
          memL (levelDir g otherDist us ownDist ownParent acc).2.1.2 m = true ∧
            memL otherDist m = true) ∧
        (∀ w ∈ (levelDir g otherDist us ownDist ownParent acc).1,
          memL (levelDir g otherDist us ownDist ownParent acc).2.1.2 w = true)) := by
  intro us
  induction us with
  | nil =>
      intro ownDist ownParent acc _ hkeq hwp hpos hacc
      exact ⟨hkeq, hwp, hpos, fun _ hx => hx, by simp [levelDir], hacc⟩
  | cons u us ih =>
      intro ownDist ownParent acc hus hkeq hwp hpos hacc
      have hup : memL ownParent u = true := hus u (List.mem_cons_self u us)
      obtain ⟨b1, b2, b3, b4, b5, b6⟩ :=
        scanDir_B root u otherDist ((lookupL ownDist u).getD 0)
          (ascElems (g.getFollowing u)) ownDist ownParent
          (fun v hv => hgnn u v ((mem_ascElems _ _).mp hv)) hkeq hwp hpos hup
      cases hm : (scanDir otherDist ownDist ownParent u
          ((lookupL ownDist u).getD 0) (ascElems (g.getFollowing u))).2.2 with
      | some m =>
          have hbe : levelDir g otherDist (u :: us) ownDist ownParent acc
              = (acc ++ (scanDir otherDist ownDist ownParent u
                  ((lookupL ownDist u).getD 0) (ascElems (g.getFollowing u))).1,
                 (scanDir otherDist ownDist ownParent u
                  ((lookupL ownDist u).getD 0) (ascElems (g.getFollowing u))).2.1,
                 some m) := by
            simp only [levelDir]
            rw [hm]
          rw [hbe]
          refine ⟨b1, b2, b3, b4, ?_, ?_⟩
          · intro m' hm'
            rw [Option.some_inj] at hm'
            exact hm' ▸ b5 m hm
          · intro w hw
            rcases List.mem_append.mp hw with h1 | h1
            · exact b4 w (hacc w h1)
            · exact b6 w h1
      | none =>
          have hbe : levelDir g otherDist (u :: us) ownDist ownParent acc
              = levelDir g otherDist us
                 (scanDir otherDist ownDist ownParent u
                  ((lookupL ownDist u).getD 0) (ascElems (g.getFollowing u))).2.1.1
                 (scanDir otherDist ownDist ownParent u
                  ((lookupL ownDist u).getD 0) (ascElems (g.getFollowing u))).2.1.2
                 (acc ++ (scanDir otherDist ownDist ownParent u
                  ((lookupL ownDist u).getD 0) (ascElems (g.getFollowing u))).1) := by
            simp only [levelDir]
            rw [hm]
          rw [hbe]
          obtain ⟨c1, c2, c3, c4, c5, c6⟩ := ih _ _ _
            (fun w hw => b4 w (hus w (List.mem_cons_of_mem u hw))) b1 b2 b3
            (by
              intro w hw
              rcases List.mem_append.mp hw with h1 | h1
              · exact b4 w (hacc w h1)
              · exact b6 w h1)
          exact ⟨c1, c2, c3, fun x hx => c4 x (b4 x hx), c5, c6⟩

theorem dirStep_A (g : SocialGraph) (root : Int) (other : List (Int × Int))
    (q : List Int) (d p : List (Int × Int))
    (hq : ∀ u ∈ q, memL d u = true)
    (hweak : ∀ k, memL d k = true → WeakConn g root k) :
    ((∀ k, memL (dirStep g other q d p).2.1.1 k = true → WeakConn g root k) ∧
      (∀ x, memL d x = true → memL (dirStep g other q d p).2.1.1 x = true) ∧
      (∀ w ∈ (dirStep g other q d p).1, memL (dirStep g other q d p).2.1.1 w = true) ∧
      (∀ m, (dirStep g other q d p).2.2 = some m →
        memL other m = true ∧ WeakConn g root m)) := by
  unfold dirStep
  by_cases he : q.isEmpty
  · rw [if_pos he]
    exact ⟨hweak, fun _ hx => hx, hq, by simp⟩
  · rw [if_neg he]
    exact levelDir_A g root other q d p [] hq hweak (by simp)

theorem dirStep_B (g : SocialGraph) (root : Int) (other : List (Int × Int))
    (q : List Int) (d p : List (Int × Int))
    (hgnn : ∀ u v : Int, follows g u v → 0 ≤ v)
    (hq : ∀ u ∈ q, memL p u = true)
    (hkeq : ∀ x, memL d x = memL p x)
    (hwp : WellParented p root)
    (hpos : ∀ kv ∈ p, 0 ≤ kv.1) :
    ((∀ x, memL (dirStep g other q d p).2.1.1 x = memL (dirStep g other q d p).2.1.2 x) ∧
      WellParented (dirStep g other q d p).2.1.2 root ∧
      (∀ kv ∈ (dirStep g other q d p).2.1.2, 0 ≤ kv.1) ∧
      (∀ x, memL p x = true → memL (dirStep g other q d p).2.1.2 x = true) ∧
      (∀ m, (dirStep g other q d p).2.2 = some m →
        memL (dirStep g other q d p).2.1.2 m = true ∧ memL other m = true) ∧
      (∀ w ∈ (dirStep g other q d p).1, memL (dirStep g other q d p).2.1.2 w = true)) := by
  unfold dirStep
  by_cases he : q.isEmpty
  · rw [if_pos he]
    exact ⟨hkeq, hwp, hpos, fun _ hx => hx, by simp, hq⟩
  · rw [if_neg he]
    have hqd : ∀ u ∈ q, memL p u = true := hq
    exact levelDir_B g root other hgnn q d p [] hqd hkeq hwp hpos (by simp)

/-- A meeting reported by the bidirectional loop is weakly connected to
both endpoints. -/
theorem biLoop_A (g : SocialGraph) (s t : Int) :
    ∀ (fuel : ℕ) (qs qt : List Int) (st : BidState) (m : Int) (st' : BidState),
      (∀ k, memL st.dist_src k = true → WeakConn g s k) →
      (∀ k, memL st.dist_tgt k = true → WeakConn g t k) →
      (∀ u ∈ qs, memL st.dist_src u = true) →
      (∀ u ∈ qt, memL st.dist_tgt u = true) →
      biLoop g fuel qs qt st = some (some (m, st')) →
      WeakConn g s m ∧ WeakConn g t m := by
  intro fuel
  induction fuel with
  | zero =>
      intro qs qt st m st' _ _ _ _ h
      exact absurd h (by simp [biLoop])
  | succ fuel ih =>
      intro qs qt st m st' hws hwt hqs hqt h
      simp only [biLoop] at h
      by_cases hemp : qs.isEmpty ∧ qt.isEmpty
      · rw [if_pos hemp] at h
        simp at h
      · rw [if_neg hemp] at h
        obtain ⟨f1, f2, f3, f4⟩ := dirStep_A g s st.dist_tgt qs st.dist_src st.parent_src hqs hws
        cases hf : (dirStep g st.dist_tgt qs st.dist_src st.parent_src).2.2 with
        | some mf =>
            rw [hf] at h
            simp only [Option.some_inj, Prod.mk.injEq] at h
            obtain ⟨hm, _⟩ := h
            obtain ⟨hfn, hwm⟩ := f4 mf hf
            exact hm ▸ ⟨hwm, hwt mf hfn⟩
        | none =>
            rw [hf] at h
            obtain ⟨b1, b2, b3, b4⟩ :=
              dirStep_A g t (dirStep g st.dist_tgt qs st.dist_src st.parent_src).2.1.1
                qt st.dist_tgt st.parent_tgt hqt hwt
            cases hb : (dirStep g (dirStep g st.dist_tgt qs st.dist_src st.parent_src).2.1.1
                qt st.dist_tgt st.parent_tgt).2.2 with
            | some mb =>
                rw [hb] at h
                simp only [Option.some_inj, Prod.mk.injEq] at h
                obtain ⟨hm, _⟩ := h
                obtain ⟨hbn, hwm⟩ := b4 mb hb
                exact hm ▸ ⟨f1 mb hbn, hwm⟩
            | none =>
                rw [hb] at h
                exact ih _ _ _ m st' f1 b1 f3 b3 h

/-- The parent tables the bidirectional loop hands back at a meeting are
well-formed forests containing the meeting node. -/
theorem biLoop_B (g : SocialGraph) (s t : Int)
    (hgnn : ∀ u v : Int, follows g u v → 0 ≤ v) :
    ∀ (fuel : ℕ) (qs qt : List Int) (st : BidState) (m : Int) (st' : BidState),
      (∀ x, memL st.dist_src x = memL st.parent_src x) →
      (∀ x, memL st.dist_tgt x = memL st.parent_tgt x) →
      WellParented st.parent_src s →
      WellParented st.parent_tgt t →
      (∀ kv ∈ st.parent_src, 0 ≤ kv.1) →
      (∀ kv ∈ st.parent_tgt, 0 ≤ kv.1) →
      (∀ u ∈ qs, memL st.parent_src u = true) →
      (∀ u ∈ qt, memL st.parent_tgt u = true) →
      biLoop g fuel qs qt st = some (some (m, st')) →
      (WellParented st'.parent_src s ∧ WellParented st'.parent_tgt t ∧
        (∀ kv ∈ st'.parent_src, 0 ≤ kv.1) ∧ (∀ kv ∈ st'.parent_tgt, 0 ≤ kv.1) ∧
        memL st'.parent_src m = true ∧ memL st'.parent_tgt m = true) := by
  intro fuel
  induction fuel with
  | zero =>
      intro qs qt st m st' _ _ _ _ _ _ _ _ h
      exact absurd h (by simp [biLoop])
  | succ fuel ih =>
      intro qs qt st m st' hks hkt hwps hwpt hpss hpst hqs hqt h
      simp only [biLoop] at h
      by_cases hemp : qs.isEmpty ∧ qt.isEmpty
      · rw [if_pos hemp] at h
        simp at h
      · rw [if_neg hemp] at h
        have hqsd : ∀ u ∈ qs, memL st.parent_src u = true := hqs
        obtain ⟨f1, f2, f3, f4, f5, f6⟩ :=
          dirStep_B g s st.dist_tgt qs st.dist_src st.parent_src hgnn hqsd hks hwps hpss
        cases hf : (dirStep g st.dist_tgt qs st.dist_src st.parent_src).2.2 with
        | some mf =>
            rw [hf] at h
            simp only [Option.some_inj, Prod.mk.injEq] at h
            obtain ⟨hm, hst⟩ := h
            obtain ⟨hmem1, hmem2⟩ := f5 mf hf
            subst hm
            rw [← hst]
            refine ⟨f2, hwpt, f3, hpst, hmem1, ?_⟩
            rw [← hkt]
            exact hmem2
        | none =>
            rw [hf] at h
            obtain ⟨b1, b2, b3, b4, b5, b6⟩ :=
              dirStep_B g t (dirStep g st.dist_tgt qs st.dist_src st.parent_src).2.1.1
                qt st.dist_tgt st.parent_tgt hgnn hqt hkt hwpt hpst
            cases hb : (dirStep g (dirStep g st.dist_tgt qs st.dist_src st.parent_src).2.1.1
                qt st.dist_tgt st.parent_tgt).2.2 with
            | some mb =>
                rw [hb] at h
                simp only [Option.some_inj, Prod.mk.injEq] at h
                obtain ⟨hm, hst⟩ := h
                obtain ⟨hmem1, hmem2⟩ := b5 mb hb
                subst hm
                rw [← hst]
                refine ⟨f2, b2, f3, b3, ?_, hmem1⟩
                rw [← f1]
                exact hmem2
            | none =>
                rw [hb] at h
                exact ih _ _ _ m st' f1 b1 f2 b2 f3 b3 f6 b6 h

/-! ## Endpoint and connectivity correctness of the search -/

theorem memL_singleton {α : Type} (a k : Int) (b : α) :
    memL [(a, b)] k = (k == a) := by
  simp only [memL, List.find?]
  by_cases h : a = k
  · subst h
    simp
  · rw [show ((a : Int) == k) = false from beq_eq_false_iff_ne.mpr h]
    rw [show ((k : Int) == a) = false from beq_eq_false_iff_ne.mpr (Ne.symm h)]
    simp

theorem weakConn_symm (g : SocialGraph) {a b : Int} (h : WeakConn g a b) :
    WeakConn g b a :=
  Relation.ReflTransGen.symmetric (fun _ _ hxy => Or.symm hxy) h

theorem reaches_weakConn (g : SocialGraph) {a b : Int} (h : Reaches g a b) :
    WeakConn g a b :=
  Relation.ReflTransGen.mono (fun _ _ hab => Or.inl hab) h

/-- A graph whose stored following sets hold only nonnegative IDs only
ever follows nonnegative IDs. -/
theorem follows_nonneg_of_entries (g : SocialGraph)
    (h : ∀ kv ∈ g.nodes, ∀ v ∈ kv.2.following, 0 ≤ v) :
    ∀ u v : Int, follows g u v → 0 ≤ v := by
  intro u v hv
  unfold follows SocialGraph.getFollowing at hv
  cases hn : g.getNode u with
  | none =>
      rw [hn] at hv
      exact absurd hv (Finset.not_mem_empty v)
  | some n =>
      rw [hn] at hv
      unfold SocialGraph.getNode at hn
      cases hf : g.nodes.find? (fun kv => kv.1 == u) with
      | none =>
          rw [hf] at hn
          simp at hn
      | some kv =>
          rw [hf] at hn
          simp only [Option.map, Option.some_inj] at hn
          exact h kv (List.mem_of_find?_eq_some hf) v (hn ▸ hv)

/-- A success of the bidirectional search alone only certifies weak
(undirected) connectivity of the endpoints. -/
theorem bid_exists_weak (g : SocialGraph) (fuel : ℕ) (s t : Int)
    (r : PathFindResult) (h : bidirectional_bfs g fuel s t = some r)
    (hx : r.path_exists = true) : WeakConn g s t := by
  by_cases hst : s = t
  · subst hst
    exact Relation.ReflTransGen.refl
  · simp only [bidirectional_bfs] at h
    rw [if_neg hst] at h
    split at h
    · simp at h
    · rw [Option.some_inj] at h
      rw [← h] at hx
      simp [create_failure_result] at hx
    · rename_i m stf heq
      have hws : ∀ k, memL [((s : Int), (0 : Int))] k = true → WeakConn g s k := by
        intro k hk
        rw [memL_singleton, beq_iff_eq] at hk
        subst hk
        exact Relation.ReflTransGen.refl
      have hwt : ∀ k, memL [((t : Int), (0 : Int))] k = true → WeakConn g t k := by
        intro k hk
        rw [memL_singleton, beq_iff_eq] at hk
        subst hk
        exact Relation.ReflTransGen.refl
      have hqs : ∀ u ∈ [s], memL [((s : Int), (0 : Int))] u = true := by
        intro u hu
        rw [List.mem_singleton] at hu
        subst hu
        rw [memL_singleton]
        simp
      have hqt : ∀ u ∈ [t], memL [((t : Int), (0 : Int))] u = true := by
        intro u hu
        rw [List.mem_singleton] at hu
        subst hu
        rw [memL_singleton]
        simp
      obtain ⟨h1, h2⟩ := biLoop_A g s t fuel [s] [t] _ m stf hws hwt hqs hqt heq
      exact h1.trans (weakConn_symm g h2)

/-- A success of the bidirectional search on a nonnegative-ID graph ends
up with a reconstructed path running from the source to the target. -/
theorem bid_endpoints (g : SocialGraph) (fuel : ℕ) (s t : Int)
    (r : PathFindResult)
    (hgnn : ∀ u v : Int, follows g u v → 0 ≤ v) (hs : 0 ≤ s) (ht : 0 ≤ t)
    (h : bidirectional_bfs g fuel s t = some r) (hx : r.path_exists = true) :
    r.path_node_ids.head? = some s ∧ r.path_node_ids.getLast? = some t := by
  by_cases hst : s = t
  · subst hst
    simp only [bidirectional_bfs] at h
    rw [if_pos trivial, Option.some_inj] at h
    rw [← h]
    exact ⟨rfl, rfl⟩
  · simp only [bidirectional_bfs] at h
    rw [if_neg hst] at h
    split at h
    · simp at h
    · rw [Option.some_inj] at h
      rw [← h] at hx
      simp [create_failure_result] at hx
    · rename_i m stf heq
      have hks : ∀ x, memL [((s : Int), (0 : Int))] x = memL [((s : Int), (-1 : Int))] x := by
        intro x
        rw [memL_singleton, memL_singleton]
      have hkt : ∀ x, memL [((t : Int), (0 : Int))] x = memL [((t : Int), (-1 : Int))] x := by
        intro x
        rw [memL_singleton, memL_singleton]
      have hpss : ∀ kv ∈ [((s : Int), (-1 : Int))], 0 ≤ kv.1 := by
        intro kv hkv
        rw [List.mem_singleton] at hkv
        rw [hkv]
        exact hs
      have hpst : ∀ kv ∈ [((t : Int), (-1 : Int))], 0 ≤ kv.1 := by
        intro kv hkv
        rw [List.mem_singleton] at hkv
        rw [hkv]
        exact ht
      have hqs : ∀ u ∈ [s], memL [((s : Int), (-1 : Int))] u = true := by
        intro u hu
        rw [List.mem_singleton] at hu
        subst hu
        rw [memL_singleton]
        simp
      have hqt : ∀ u ∈ [t], memL [((t : Int), (-1 : Int))] u = true := by
        intro u hu
        rw [List.mem_singleton] at hu
        subst hu
        rw [memL_singleton]
        simp
      obtain ⟨hwps, hwpt, hposs, hpost, hms, hmt⟩ :=
        biLoop_B g s t hgnn fuel [s] [t] _ m stf hks hkt
          (WellParented.init s) (WellParented.init t) hpss hpst hqs hqt heq
      rw [Option.some_inj] at h
      rw [← h]
      exact reconstruct_endpoints stf.parent_src stf.parent_tgt s t m
        hwps hwpt hposs hpost hms hmt

/-- Existence-characterization of the full compute pipeline: directed
reachability forces a success, a success forces weak connectivity. -/
theorem compute_correct (g : SocialGraph) (fuel : ℕ) (s t : Int)
    (r : PathFindResult) (h : compute_path_internal g fuel s t = some r) :
    (Reaches g s t → r.path_exists = true) ∧
    (r.path_exists = true → WeakConn g s t) := by
  simp only [compute_path_internal] at h
  split at h
  · simp at h
  · rename_i rb heq
    split at h
    · rename_i hbx
      rw [Option.some_inj] at h
      subst h
      exact ⟨fun _ => hbx, fun hx => bid_exists_weak g fuel s t rb heq hx⟩
    · rename_i hbx
      simp only [simple_bfs] at h
      split at h
      · rename_i hst
        rw [Option.some_inj] at h
        subst hst
        rw [← h]
        exact ⟨fun _ => rfl, fun _ => Relation.ReflTransGen.refl⟩
      · rename_i hst
        have hclosed : ∀ k, memL [((s : Int), (0 : Int))] k = true →
            k ∈ [s] ∨ ∀ v, follows g k v → memL [((s : Int), (0 : Int))] v = true := by
          intro k hk
          rw [memL_singleton, beq_iff_eq] at hk
          subst hk
          exact Or.inl (List.mem_singleton.mpr rfl)
        have hti : memL [((s : Int), (0 : Int))] t = true → t ∈ [s] := by
          intro hk
          rw [memL_singleton, beq_iff_eq] at hk
          exact List.mem_singleton.mpr hk
        have hq : ∀ w ∈ [s], memL [((s : Int), (0 : Int))] w = true := by
          intro u hu
          rw [List.mem_singleton] at hu
          subst hu
          rw [memL_singleton]
          simp
        have hreach : ∀ x, memL [((s : Int), (0 : Int))] x = true → Reaches g s x := by
          intro k hk
          rw [memL_singleton, beq_iff_eq] at hk
          subst hk
          exact Relation.ReflTransGen.refl
        have hsm : memL [((s : Int), (0 : Int))] s = true := by
          rw [memL_singleton]
          simp
        obtain ⟨h1, h2⟩ :=
          simpleBfsLoop_A g s t fuel [s] [(s, -1)] [(s, 0)] r hclosed hti hq hreach hsm h
        refine ⟨?_, fun hx => reaches_weakConn g (h1 hx)⟩
        intro hre
        cases hx : r.path_exists with
        | true => rfl
        | false => exact absurd hre (h2 hx)

/-- Endpoint correctness of the full compute pipeline on nonnegative-ID
graphs. -/
theorem compute_endpoints (g : SocialGraph) (fuel : ℕ) (s t : Int)
    (r : PathFindResult)
    (hgnn : ∀ u v : Int, follows g u v → 0 ≤ v) (hs : 0 ≤ s) (ht : 0 ≤ t)
    (h : compute_path_internal g fuel s t = some r) (hx : r.path_exists = true) :
    r.path_node_ids.head? = some s ∧ r.path_node_ids.getLast? = some t := by
  simp only [compute_path_internal] at h
  split at h
  · simp at h
  · rename_i rb heq
    split at h
    · rename_i hbx
      rw [Option.some_inj] at h
      subst h
      exact bid_endpoints g fuel s t rb hgnn hs ht heq hx
    · rename_i hbx
      simp only [simple_bfs] at h
      split at h
      · rename_i hst
        rw [Option.some_inj] at h
        subst hst
        rw [← h]
        exact ⟨rfl, rfl⟩
      · rename_i hst
        have hkeq : ∀ x, memL [((s : Int), (0 : Int))] x
            = memL [((s : Int), (-1 : Int))] x := by
          intro x
          rw [memL_singleton, memL_singleton]
        have hpos : ∀ kv ∈ [((s : Int), (-1 : Int))], 0 ≤ kv.1 := by
          intro kv hkv
          rw [List.mem_singleton] at hkv
          rw [hkv]
          exact hs
        have hq : ∀ w ∈ [s], memL [((s : Int), (0 : Int))] w = true := by
          intro u hu
          rw [List.mem_singleton] at hu
          subst hu
          rw [memL_singleton]
          simp
        exact simpleBfsLoop_B g s t fuel [s] [(s, -1)] [(s, 0)] r hgnn hkeq
          (WellParented.init s) hpos hq h hx

/-- C3 (amended): on a cache-miss call, `find_path` reports an existing
path whenever the target is reachable from the source along the directed
following relation, and reports no path whenever the endpoints are not
even weakly connected; a reported path, however, only certifies weak
(undirected) connectivity, not the directed reachability the claim
asserts, because the backward frontier expands outgoing rather than
incoming edges. -/
theorem C3_fresh_exists_characterization (g : SocialGraph) (st : DistCalcState)
    (fuel : ℕ) (s t : Int) (r : PathFindResult) (st' : DistCalcState)
    (hmiss : lookupL st.result_cache (encode_pair s t) = none)
    (h : find_path g st fuel s t = some (r, st')) :
    (Reaches g s t → r.path_exists = true) ∧
    (r.path_exists = true → WeakConn g s t) ∧
    (¬ WeakConn g s t → r.path_exists = false) := by
  simp only [find_path] at h
  split at h
  · rename_i r0 heq
    rw [hmiss] at heq
    simp at heq
  · split at h
    · simp at h
    · rename_i r0 heq
      simp only [Option.some_inj, Prod.mk.injEq] at h
      obtain ⟨hr, _⟩ := h
      subst hr
      obtain ⟨h1, h2⟩ := compute_correct g fuel s t r0 heq
      refine ⟨h1, h2, ?_⟩
      intro hnc
      cases hxx : r0.path_exists with
      | false => rfl
      | true => exact absurd (h2 hxx) hnc

/-- C3 witness: a fresh `find_path(1, 4)` on the directed chain
1 → 2 → 3 → 4 instantiates the characterization. -/
theorem C3_witness :
    find_path chainGraph emptyCalcState 10 1 4
        = some (create_success_result [1, 2, 3, 4], chainState) ∧
    ((Reaches chainGraph 1 4 → (create_success_result [1, 2, 3, 4]).path_exists = true) ∧
      ((create_success_result [1, 2, 3, 4]).path_exists = true → WeakConn chainGraph 1 4) ∧
      (¬ WeakConn chainGraph 1 4 →
        (create_success_result [1, 2, 3, 4]).path_exists = false)) :=
  ⟨by decide,
    C3_fresh_exists_characterization chainGraph emptyCalcState 10 1 4
      (create_success_result [1, 2, 3, 4]) chainState (by decide) (by decide)⟩

/-- C6 (amended): a cache-miss call to `find_path` on a graph whose
following sets hold only nonnegative IDs, with nonnegative endpoints,
that reports a path returns a node sequence beginning at the source and
ending at the target; the unordered-pair cache key breaks this guarantee
for cache-hit calls with the endpoints reversed. -/
theorem C6_fresh_path_endpoints (g : SocialGraph) (st : DistCalcState)
    (fuel : ℕ) (s t : Int) (r : PathFindResult) (st' : DistCalcState)
    (hgnn : ∀ u v : Int, follows g u v → 0 ≤ v)
    (hs : 0 ≤ s) (ht : 0 ≤ t)
    (hmiss : lookupL st.result_cache (encode_pair s t) = none)
    (h : find_path g st fuel s t = some (r, st'))
    (hx : r.path_exists = true) :
    r.path_node_ids.head? = some s ∧ r.path_node_ids.getLast? = some t := by
  simp only [find_path] at h
  split at h
  · rename_i r0 heq
    rw [hmiss] at heq
    simp at heq
  · split at h
    · simp at h
    · rename_i r0 heq
      simp only [Option.some_inj, Prod.mk.injEq] at h
      obtain ⟨hr, _⟩ := h
      subst hr
      exact compute_endpoints g fuel s t r0 hgnn hs ht heq hx

/-- C6 witness: the fresh `find_path(1, 4)` on the directed chain
1 → 2 → 3 → 4 returns its path running from 1 to 4. -/
theorem C6_witness :
    find_path chainGraph emptyCalcState 10 1 4
        = some (create_success_result [1, 2, 3, 4], chainState) ∧
    ((create_success_result [1, 2, 3, 4]).path_node_ids.head? = some 1 ∧
      (create_success_result [1, 2, 3, 4]).path_node_ids.getLast? = some 4) :=
  ⟨by decide,
    C6_fresh_path_endpoints chainGraph emptyCalcState 10 1 4
      (create_success_result [1, 2, 3, 4]) chainState
      (follows_nonneg_of_entries chainGraph (by decide))
      (by decide) (by decide) (by decide) (by decide) (by decide)⟩

end DSA
